import Mathlib

/-!
Verification of the result-aggregator script (`results_parser.py`).

The development shallowly embeds the script's data model and operations:

* `parse_datetime_from_string_key` - the Key Parser.  The Python code runs
  `re.search` with the pattern
  `\(\s*'([^']*)'\s*,\s*datetime\.date\s*\(\s*(\d{4})\s*,\s*(\d{1,2})\s*,\s*(\d{1,2})\s*\)\s*\)`
  and then builds `datetime.date(year, month, day)`, catching `ValueError`.
  The embedding implements the same search as a deterministic matcher
  (each quantified piece of the pattern is followed by a character it can
  never consume, so backtracking cannot change the outcome), tried at every
  start position, leftmost match first, exactly like `re.search`.
* `parse_history_file` - the History File Loader (insertion-ordered
  association lists play the role of Python dicts).
* `parse_other_json_file` - the Other File Loader.
* the `__main__` accumulation loops and the history part of
  `print_data_summary`.
-/

namespace RP

/-- ASCII whitespace characters matched by Python's `\s` (the inputs in scope
are ASCII; `re.UNICODE` extras never occur in the key strings). -/
def pyIsSpace (c : Char) : Bool :=
  c = ' ' || c = '\t' || c = '\n' || c = Char.ofNat 11 || c = Char.ofNat 12 || c = '\r'

/-- The single-quote character `'` (ASCII 39). -/
def quoteChar : Char := Char.ofNat 39

/-- `\s*`: drop the maximal run of whitespace. -/
def dropSpaces : List Char → List Char
  | [] => []
  | c :: cs => if pyIsSpace c then dropSpaces cs else c :: cs

/-- Consume one expected character. -/
def expectC (c : Char) : List Char → Option (List Char)
  | [] => none
  | x :: xs => if x = c then some xs else none

/-- Consume an expected literal sequence of characters. -/
def expectS : List Char → List Char → Option (List Char)
  | [], s => some s
  | _ :: _, [] => none
  | t :: ts, x :: xs => if x = t then expectS ts xs else none

/-- `[^']*`: the maximal run of non-quote characters, and the rest. -/
def spanNQ : List Char → List Char × List Char
  | [] => ([], [])
  | c :: cs =>
    if c = quoteChar then ([], c :: cs)
    else
      let r := spanNQ cs
      (c :: r.1, r.2)

/-- Up to `n` leading decimal digits (greedy), and the rest. -/
def takeDigits : Nat → List Char → List Char × List Char
  | 0, s => ([], s)
  | _ + 1, [] => ([], [])
  | n + 1, c :: cs =>
    if c.isDigit then
      let r := takeDigits n cs
      (c :: r.1, r.2)
    else ([], c :: cs)

/-- Numeric value of a digit string (what Python's `int` returns on it). -/
def digitsVal (ds : List Char) : Nat :=
  ds.foldl (fun a c => a * 10 + (c.toNat - 48)) 0

/-- The literal `datetime.date` required by the pattern. -/
def dtLit : List Char :=
  ['d', 'a', 't', 'e', 't', 'i', 'm', 'e', '.', 'd', 'a', 't', 'e']

/-- Attempt to match the key pattern at the start of `s` (one `re` start
position).  Returns the captured symbol and the three integer components. -/
def matchAt (s : List Char) : Option (String × Nat × Nat × Nat) :=
  (expectC '(' s).bind fun r1 =>
  (expectC quoteChar (dropSpaces r1)).bind fun r2 =>
  let sp := spanNQ r2
  (expectC quoteChar sp.2).bind fun r3 =>
  (expectC ',' (dropSpaces r3)).bind fun r4 =>
  (expectS dtLit (dropSpaces r4)).bind fun r5 =>
  (expectC '(' (dropSpaces r5)).bind fun r6 =>
  let yd := takeDigits 4 (dropSpaces r6)
  if yd.1.length = 4 then
    (expectC ',' (dropSpaces yd.2)).bind fun r7 =>
    let md := takeDigits 2 (dropSpaces r7)
    if md.1.length = 0 then none else
    (expectC ',' (dropSpaces md.2)).bind fun r8 =>
    let dd := takeDigits 2 (dropSpaces r8)
    if dd.1.length = 0 then none else
    (expectC ')' (dropSpaces dd.2)).bind fun r9 =>
    (expectC ')' (dropSpaces r9)).bind fun _ =>
    some (String.mk sp.1, digitsVal yd.1, digitsVal md.1, digitsVal dd.1)
  else none

/-- `re.search`: try the pattern at each start position, leftmost first. -/
def reSearch : List Char → Option (String × Nat × Nat × Nat)
  | [] => none
  | c :: cs =>
    match matchAt (c :: cs) with
    | some r => some r
    | none => reSearch cs

/-- A calendar date as `datetime.date` stores it. -/
structure Date where
  year : Nat
  month : Nat
  day : Nat
deriving DecidableEq

/-- Python's Gregorian leap-year test. -/
def isLeapB (y : Nat) : Bool := y % 4 = 0 && (y % 100 ≠ 0 || y % 400 = 0)

/-- `datetime`'s days-in-month table. -/
def daysInMonth (y m : Nat) : Nat :=
  if m = 2 then (if isLeapB y then 29 else 28)
  else if m = 4 ∨ m = 6 ∨ m = 9 ∨ m = 11 then 30
  else 31

/-- The validation performed by the `datetime.date` constructor. -/
def validYMD (y m d : Nat) : Bool :=
  decide (1 ≤ y) && decide (y ≤ 9999) && decide (1 ≤ m) && decide (m ≤ 12) &&
  decide (1 ≤ d) && decide (d ≤ daysInMonth y m)

/-- `datetime.date(y, m, d)`: `some` on success, `none` when the constructor
raises `ValueError` (which the Key Parser catches). -/
def pyDate? (y m d : Nat) : Option Date :=
  if validYMD y m d then some ⟨y, m, d⟩ else none

/-- The Key Parser: `re.search` with the key pattern, then
`int` conversion and `datetime.date` construction with `ValueError` caught;
`(None, None)` is modelled as `none`. -/
def parse_datetime_from_string_key (s : String) : Option (String × Date) :=
  match reSearch s.data with
  | none => none
  | some (sym, y, m, d) =>
    match pyDate? y m d with
    | none => none
    | some dt => some (sym, dt)

/-- Build the key string `('SYM', REST` + `))` from a symbol and the text of
the date-constructor arguments, e.g. `mkKey "A" "2023, 1, 1"` is the string
`('A', datetime.date(2023, 1, 1))`. -/
def mkKey (sym rest : String) : String :=
  String.mk ('(' :: quoteChar :: sym.data ++
    quoteChar :: ',' :: ' ' :: ("datetime.date(" ++ rest ++ "))").data)


/-! ## JSON values and Python-dict association lists -/

/-- A decoded JSON value.  Objects are insertion-ordered key/value lists,
exactly as `json.load` presents them to the script. -/
inductive Json where
  | null : Json
  | boolean : Bool → Json
  | num : Int → Json
  | str : String → Json
  | arr : List Json → Json
  | obj : List (String × Json) → Json

/-- Association list modelling a Python `dict` (insertion-ordered). -/
abbrev AL (α β : Type) := List (α × β)

/-- `m[k]` / `k in m`: the first binding of `k`. -/
def alLookup [DecidableEq α] : AL α β → α → Option β
  | [], _ => none
  | (k', v) :: t, k => if k' = k then some v else alLookup t k

/-- `m[k] = v`: update the binding of `k` in place, or append a new one -
Python `dict` assignment. -/
def alIns [DecidableEq α] : AL α β → α → β → AL α β
  | [], k, v => [(k, v)]
  | (k', v') :: t, k, v => if k' = k then (k, v) :: t else (k', v') :: alIns t k v

/-- `m.get(k, dflt)`. -/
def alGetD [DecidableEq α] (m : AL α β) (k : α) (dflt : β) : β :=
  (alLookup m k).getD dflt

/-- `if k not in m: m[k] = dflt` followed by in-place mutation of `m[k]`
by `f` - the idiom used throughout the script. -/
def alModify [DecidableEq α] (m : AL α β) (k : α) (dflt : β) (f : β → β) : AL α β :=
  alIns m k (f (alGetD m k dflt))

/-! ## History File Loader -/

/-- The three-level mapping `symbol → category → date → value`. -/
abbrev HistMap := AL String (AL String (AL Date Json))

/-- One recorded entry: `parsed_data[symbol][data_type_key][date_obj] = value`
(creating the intermediate dicts when absent). -/
def ins3 (m : HistMap) (e : String × String × Date × Json) : HistMap :=
  alModify m e.1 [] (fun sm => alModify sm e.2.1 [] (fun cm => alIns cm e.2.2.1 e.2.2.2))

/-- `symbols_in_file.add s`. -/
def setAdd (l : List String) (s : String) : List String :=
  if s ∈ l then l else s :: l

/-- Loop state of `parse_history_file`:
`(parsed_data, symbols_in_file, items_in_file)`. -/
structure HAcc where
  data : HistMap
  syms : List String
  items : Nat

/-- The body of the inner loop of `parse_history_file`: parse the key and, if
the symbol and the date are both truthy (note: the empty string is falsy in
Python), record the value; otherwise skip the entry. -/
def recordEntry (cat : String) (acc : HAcc) (kv : String × Json) : HAcc :=
  match parse_datetime_from_string_key kv.1 with
  | some (sym, dt) =>
    if sym = "" then acc
    else ⟨ins3 acc.data (sym, cat, dt, kv.2), setAdd acc.syms sym, acc.items + 1⟩
  | none => acc

/-- The body of the outer loop of `parse_history_file`: a top-level value that
is not an object is skipped with a warning. -/
def processCat (acc : HAcc) (ckv : String × Json) : HAcc :=
  match ckv.2 with
  | .obj entries => entries.foldl (recordEntry ckv.1) acc
  | _ => acc

/-- What reading and JSON-decoding a file can produce. -/
inductive LoadResult where
  | missing : LoadResult
  | badJson : LoadResult
  | ok : Json → LoadResult

/-- Outcome of `parse_history_file`: the explicit failure value
`(None, 0, 0)`, an uncaught exception escaping to the caller, or
`(parsed_data, len(symbols_in_file), items_in_file)`. -/
inductive HistResult where
  | failure : HistResult
  | pyError : HistResult
  | success : HistMap → Nat → Nat → HistResult

/-- The History File Loader.  `FileNotFoundError` and `JSONDecodeError` are
caught and give `(None, 0, 0)`; but `raw_data.items()` is evaluated without
checking that `raw_data` is a dict, so a decoded non-object raises
`AttributeError`, which nothing catches. -/
def parse_history_file : LoadResult → HistResult
  | .missing => .failure
  | .badJson => .failure
  | .ok (.obj kvs) =>
    let a := kvs.foldl processCat ⟨[], [], 0⟩
    .success a.data a.syms.length a.items
  | .ok _ => .pyError

/-! ## Other File Loader -/

/-- The Other File Loader: expects `[[symbol, details, ...], ...]` and
validates, in order: top level a non-empty list, first element a list of
length at least 2, its first item a string, its second item an object.  Any
failure yields `None`; extra elements are ignored. -/
def parse_other_json_file : LoadResult → Option (String × AL String Json)
  | .missing => none
  | .badJson => none
  | .ok j =>
    match j with
    | .arr (inner :: _) =>
      match inner with
      | .arr (v1 :: v2 :: _) =>
        match v1 with
        | .str sym =>
          match v2 with
          | .obj details => some (sym, details)
          | _ => none
        | _ => none
      | _ => none
    | _ => none

/-! ## Aggregation (`__main__` accumulation loops) -/

/-- `all_history_data[symbol][data_type_key].update(type_data_dict)` for one
category that the file contributed. -/
def dictUpdate (dst src : AL Date Json) : AL Date Json :=
  src.foldl (fun a kv => alIns a kv.1 kv.2) dst

/-- Merge one file's per-symbol data into the accumulated per-symbol data. -/
def mergeSym (dst sd : AL String (AL Date Json)) : AL String (AL Date Json) :=
  sd.foldl (fun a ckv => alModify a ckv.1 [] (fun cm => dictUpdate cm ckv.2)) dst

/-- The history merge loop: fold one successfully parsed file's mapping into
`all_history_data`. -/
def mergeHist (dst m : HistMap) : HistMap :=
  m.foldl (fun a skv => alModify a skv.1 [] (fun sm => mergeSym sm skv.2)) dst

/-- One step of the history accumulation loop.  A `failure` (`None`) file is
reported and skipped; a `success` is merged and the counters grow; an
uncaught exception kills the whole run (`none`). -/
def aggStep (acc : Option (HistMap × Nat × Nat)) (r : HistResult) :
    Option (HistMap × Nat × Nat) :=
  match acc, r with
  | none, _ => none
  | some _, .pyError => none
  | some a, .failure => some a
  | some (M, tot, n), .success m _ i => some (mergeHist M m, tot + i, n + 1)

/-- The history accumulation loop over all history files, producing
`(all_history_data, total_history_items_overall,
successfully_processed_history_files)` - or `none` if the run crashed. -/
def aggHistory (rs : List HistResult) : Option (HistMap × Nat × Nat) :=
  rs.foldl aggStep (some ([], 0, 0))

/-- The other-data accumulation loop: `all_other_data[symbol] = details`. -/
def aggOther (rs : List (Option (String × AL String Json))) : AL String (AL String Json) :=
  rs.foldl (fun a r => match r with | some (s, d) => alIns a s d | none => a) []

/-- Lookup of a `(category, date)` path in a per-symbol dict. -/
def lookup2 (sd : AL String (AL Date Json)) (c : String) (d : Date) : Option Json :=
  match alLookup sd c with
  | none => none
  | some cm => alLookup cm d

/-- Lookup of one `(symbol, category, date)` leaf of the aggregate. -/
def lookup3 (M : HistMap) (s c : String) (d : Date) : Option Json :=
  match alLookup M s with
  | none => none
  | some sd => lookup2 sd c d

/-- The event recorded for one raw `(key, value)` entry of a category, if
any: the Key Parser must succeed and the symbol must be truthy (non-empty). -/
def entryEvent (cat : String) (kv : String × Json) :
    Option (String × String × Date × Json) :=
  match parse_datetime_from_string_key kv.1 with
  | some (sym, dt) => if sym = "" then none else some (sym, cat, dt, kv.2)
  | none => none

/-- All events of one top-level `(category, value)` pair: nothing unless the
value is an object. -/
def catEventsOf (ckv : String × Json) : List (String × String × Date × Json) :=
  match ckv.2 with
  | .obj entries => entries.filterMap (entryEvent ckv.1)
  | _ => []

/-- All recorded events of a decoded history object, in file order. -/
def histEvents (kvs : List (String × Json)) : List (String × String × Date × Json) :=
  kvs.flatMap catEventsOf

/-- The events a file contributes to the aggregate (nothing for files that
fail to load, decode, or crash the run). -/
def fileEv : LoadResult → List (String × String × Date × Json)
  | .ok (.obj kvs) => histEvents kvs
  | _ => []

/-! ## Events, key sets and well-formedness of the three-level mapping -/

/-- The date keys of an inner dict. -/
def keys1 (cm : AL Date Json) : List Date := cm.map Prod.fst

/-- The `(category, date)` key pairs of a per-symbol dict. -/
def keys2 (sd : AL String (AL Date Json)) : List (String × Date) :=
  sd.flatMap (fun p => (keys1 p.2).map (fun d => (p.1, d)))

/-- The `(symbol, category, date)` key triples of a `HistMap` - one per leaf
entry. -/
def keys3 (M : HistMap) : List (String × String × Date) :=
  M.flatMap (fun p => (keys2 p.2).map (fun cd => (p.1, cd.1, cd.2)))

/-- The number of `(symbol, category, date)` leaf entries of a `HistMap`. -/
def leafCount (M : HistMap) : Nat := (keys3 M).length

/-- The key triple of an event `(symbol, category, date, value)`. -/
def trip (e : String × String × Date × Json) : String × String × Date :=
  (e.1, e.2.1, e.2.2.1)

/-- Well-formedness of an inner dict: no duplicate date keys (true of every
Python dict). -/
def WF1 (cm : AL Date Json) : Prop := (keys1 cm).Nodup

/-- Well-formedness of a per-symbol dict. -/
def WF2 (sd : AL String (AL Date Json)) : Prop :=
  (sd.map Prod.fst).Nodup ∧ ∀ p ∈ sd, WF1 p.2

/-- Well-formedness of a `HistMap`: no duplicate keys at any level. -/
def HistWF (M : HistMap) : Prop :=
  (M.map Prod.fst).Nodup ∧ ∀ p ∈ M, WF2 p.2

instance (cm : AL Date Json) : Decidable (WF1 cm) := by
  unfold WF1; infer_instance

instance (sd : AL String (AL Date Json)) : Decidable (WF2 sd) := by
  unfold WF2; infer_instance

instance (M : HistMap) : Decidable (HistWF M) := by
  unfold HistWF; infer_instance


/-! ## Summary reporter (history section of `print_data_summary`) -/

/-- A key of an inner date dict as `print_data_summary` sees it: normally a
`datetime.date`, but the function tolerates other key types (it catches
`TypeError` from `sorted`).  Comparing a date with a non-date raises. -/
inductive HKey where
  | date : Date → HKey
  | str : String → HKey
deriving DecidableEq

/-- `datetime.date` ordering (lexicographic on year, month, day). -/
def dateLe (a b : Date) : Bool :=
  decide (a.year < b.year ∨ (a.year = b.year ∧ (a.month < b.month ∨
    (a.month = b.month ∧ a.day ≤ b.day))))

/-- `≤` between summary keys; comparisons across kinds are never `true`
(they raise `TypeError` in Python, captured by `allComparable` below). -/
def hkLe : HKey → HKey → Bool
  | .date a, .date b => dateLe a b
  | .str a, .str b => decide (a ≤ b)
  | _, _ => false

/-- Whether two keys can be compared without a `TypeError`. -/
def sameKind : HKey → HKey → Bool
  | .date _, .date _ => true
  | .str _, .str _ => true
  | _, _ => false

/-- `sorted(keys)` succeeds exactly when all keys are mutually comparable. -/
def allComparable : List HKey → Bool
  | [] => true
  | k :: t => t.all (sameKind k)

/-- Insertion step of a stable ascending sort. -/
def insertLe (le : α → α → Bool) (x : α) : List α → List α
  | [] => [x]
  | y :: t => if le x y then x :: y :: t else y :: insertLe le x t

/-- A stable ascending sort - the specification of Python's `sorted` on a
list whose elements are mutually comparable. -/
def sortLe (le : α → α → Bool) : List α → List α
  | [] => []
  | x :: t => insertLe le x (sortLe le t)

/-- `try: sorted(keys) except TypeError: keys` - `some` with the ascending
order when the keys are mutually comparable, `none` for the fallback. -/
def pySortedKeys (ks : List HKey) : Option (List HKey) :=
  if allComparable ks then some (sortLe hkLe ks) else none

/-- One printed category: whether the sort fell back with a warning, the
`date: value` lines actually printed, and the "... and N more entries"
count if the per-category cap was hit. -/
structure CatLine where
  cat : String
  sortWarn : Bool
  entries : List (HKey × Json)
  more : Option Nat

/-- One printed symbol block. -/
structure SymBlock where
  symbol : String
  cats : List CatLine

/-- The history section of the summary output. -/
structure HistSummary where
  blocks : List SymBlock
  moreSymbols : Option Nat

/-- The per-category entry loop: `enumerate` with a cap of 2; hitting the cap
prints `... and len(type_data_dict) - 2 more entries` and breaks. -/
def entriesAux (cm : AL HKey Json) : List HKey → Nat → List (HKey × Json) × Option Nat
  | [], _ => ([], none)
  | k :: ks, i =>
    if 2 ≤ i then ([], some (cm.length - 2))
    else
      let r := entriesAux cm ks (i + 1)
      ((k, alGetD cm k Json.null) :: r.1, r.2)

/-- One category's printed lines: sort the date keys, falling back to
unsorted iteration with a warning when `sorted` raises `TypeError`. -/
def catLine (c : String) (cm : AL HKey Json) : CatLine :=
  let ks := cm.map Prod.fst
  match pySortedKeys ks with
  | some sks =>
    let r := entriesAux cm sks 0
    ⟨c, false, r.1, r.2⟩
  | none =>
    let r := entriesAux cm ks 0
    ⟨c, true, r.1, r.2⟩

/-- The symbol loop: `enumerate` with a cap of 3; hitting the cap prints
`... and len(all_history_data) - 3 more symbols` and breaks. -/
def blocksAux (total : Nat) :
    List (String × AL String (AL HKey Json)) → Nat → List SymBlock × Option Nat
  | [], _ => ([], none)
  | (s, sd) :: t, i =>
    if 3 ≤ i then ([], some (total - 3))
    else
      let r := blocksAux total t (i + 1)
      (⟨s, sd.map (fun p => catLine p.1 p.2)⟩ :: r.1, r.2)

/-- The history-data portion of `print_data_summary` (the symbol /
category / date enumeration with its caps), as the structured content of
what gets printed. -/
def print_data_summary (h : AL String (AL String (AL HKey Json))) : HistSummary :=
  let r := blocksAux h.length h 0
  ⟨r.1, r.2⟩

/-! ## The exact textual form of a well-formed raw key -/

/-- The decimal digit with value `k`. -/
def digitChar (k : Nat) : Char := Char.ofNat (48 + k)

/-- The four decimal digits of a year `1000 ≤ y ≤ 9999`. -/
def yearChars (y : Nat) : List Char :=
  [digitChar (y / 1000), digitChar (y / 100 % 10), digitChar (y / 10 % 10), digitChar (y % 10)]

/-- The decimal digits of `n ≤ 99`, unpadded, as Python prints an int. -/
def twoChars (n : Nat) : List Char :=
  if n < 10 then [digitChar n] else [digitChar (n / 10), digitChar (n % 10)]

/-- The characters of `('SYM', datetime.date(Y, M, D))` - the exact textual
form of a raw history key, with an arbitrary continuation `post`. -/
def rawKeyChars (sym : List Char) (y m d : Nat) (post : List Char) : List Char :=
  '(' :: quoteChar :: (sym ++ quoteChar :: ',' :: ' ' :: (dtLit ++
    '(' :: (yearChars y ++ ',' :: ' ' :: (twoChars m ++ ',' :: ' ' ::
      (twoChars d ++ ')' :: ')' :: post)))))

/-- The raw key string `('SYM', datetime.date(Y, M, D))`. -/
def rawKey (sym : String) (y m d : Nat) : String :=
  String.mk (rawKeyChars sym.data y m d [])


/-! ## Correctness of the matcher on exact-form keys -/

theorem expectC_self (c : Char) (r : List Char) : expectC c (c :: r) = some r := by
  simp [expectC]

theorem expectS_self (t : List Char) : ∀ r, expectS t (t ++ r) = some r := by
  induction t with
  | nil => intro r; rfl
  | cons c cs ih => intro r; simp [expectS, ih]

theorem dropSpaces_of {c : Char} (h : pyIsSpace c = false) (r : List Char) :
    dropSpaces (c :: r) = c :: r := by
  simp [dropSpaces, h]

theorem dropSpaces_quote (r : List Char) : dropSpaces (quoteChar :: r) = quoteChar :: r :=
  dropSpaces_of (by decide) r

theorem dropSpaces_comma (r : List Char) : dropSpaces (',' :: r) = ',' :: r :=
  dropSpaces_of (by decide) r

theorem dropSpaces_lparen (r : List Char) : dropSpaces ('(' :: r) = '(' :: r :=
  dropSpaces_of (by decide) r

theorem dropSpaces_rparen (r : List Char) : dropSpaces (')' :: r) = ')' :: r :=
  dropSpaces_of (by decide) r

theorem dropSpaces_d (r : List Char) : dropSpaces ('d' :: r) = 'd' :: r :=
  dropSpaces_of (by decide) r

theorem expectS_dtLit (r : List Char) :
    expectS ['d', 'a', 't', 'e', 't', 'i', 'm', 'e', '.', 'd', 'a', 't', 'e']
      ('d' :: 'a' :: 't' :: 'e' :: 't' :: 'i' :: 'm' :: 'e' :: '.' ::
        'd' :: 'a' :: 't' :: 'e' :: r) = some r := by
  simp [expectS]

theorem dropSpaces_space (r : List Char) : dropSpaces (' ' :: r) = dropSpaces r := by
  have h : pyIsSpace ' ' = true := by decide
  simp [dropSpaces, h]

theorem spanNQ_append {sym : List Char} (hq : quoteChar ∉ sym) :
    ∀ r, spanNQ (sym ++ quoteChar :: r) = (sym, quoteChar :: r) := by
  induction sym with
  | nil => intro r; simp [spanNQ]
  | cons c cs ih =>
    intro r
    have hc : ¬(c = quoteChar) := by
      intro h; exact hq (by simp [h])
    have hcs : quoteChar ∉ cs := fun h => hq (List.mem_cons_of_mem _ h)
    simp [spanNQ, hc, ih hcs]

theorem digitChar_isDigit {k : Nat} (h : k ≤ 9) : (digitChar k).isDigit = true := by
  interval_cases k <;> decide

theorem digitChar_not_space {k : Nat} (h : k ≤ 9) : pyIsSpace (digitChar k) = false := by
  interval_cases k <;> decide

theorem digitChar_toNat {k : Nat} (h : k ≤ 9) : (digitChar k).toNat = 48 + k := by
  interval_cases k <;> decide

theorem takeDigits_exact : ∀ (ds : List Char) (n : Nat) (r : List Char),
    ds.length = n → (∀ c ∈ ds, c.isDigit = true) → takeDigits n (ds ++ r) = (ds, r) := by
  intro ds
  induction ds with
  | nil =>
    intro n r h _
    subst h; rfl
  | cons c t ih =>
    intro n r h hd
    subst h
    have hc : c.isDigit = true := hd c (by simp)
    have ih2 := ih t.length r rfl (fun x hx => hd x (by simp [hx]))
    simp [takeDigits, hc, ih2]

theorem takeDigits_stop : ∀ (ds : List Char) (n : Nat) (c0 : Char) (r : List Char),
    (∀ c ∈ ds, c.isDigit = true) → ds.length ≤ n → c0.isDigit = false →
    takeDigits n (ds ++ c0 :: r) = (ds, c0 :: r) := by
  intro ds
  induction ds with
  | nil =>
    intro n c0 r _ _ h0
    cases n with
    | zero => rfl
    | succ k => simp [takeDigits, h0]
  | cons c t ih =>
    intro n c0 r hd hl h0
    have hc : c.isDigit = true := hd c (by simp)
    cases n with
    | zero => simp at hl
    | succ k =>
      have ih2 := ih k c0 r (fun x hx => hd x (by simp [hx])) (by simp at hl; omega) h0
      simp [takeDigits, hc, ih2]

theorem length_yearChars (y : Nat) : (yearChars y).length = 4 := rfl

theorem yearChars_digits {y : Nat} (h : y ≤ 9999) :
    ∀ c ∈ yearChars y, c.isDigit = true := by
  intro c hc
  simp only [yearChars, List.mem_cons, List.not_mem_nil, or_false] at hc
  rcases hc with h1 | h1 | h1 | h1 <;> subst h1 <;>
    exact digitChar_isDigit (by omega)

theorem takeDigits4_year {y : Nat} (h : y ≤ 9999) :
    ∀ r, takeDigits 4 (yearChars y ++ r) = (yearChars y, r) := fun r =>
  takeDigits_exact _ _ r (length_yearChars y) (yearChars_digits h)

theorem twoChars_digits {n : Nat} (h : n ≤ 99) : ∀ c ∈ twoChars n, c.isDigit = true := by
  intro c hc
  by_cases h10 : n < 10
  · simp only [twoChars, if_pos h10, List.mem_cons, List.not_mem_nil, or_false] at hc
    subst hc; exact digitChar_isDigit (by omega)
  · simp only [twoChars, if_neg h10, List.mem_cons, List.not_mem_nil, or_false] at hc
    rcases hc with h1 | h1 <;> subst h1 <;> exact digitChar_isDigit (by omega)

theorem twoChars_length {n : Nat} : (twoChars n).length ≤ 2 := by
  by_cases h10 : n < 10 <;> simp [twoChars, h10]

theorem twoChars_length_ne (n : Nat) : ¬((twoChars n).length = 0) := by
  by_cases h10 : n < 10 <;> simp [twoChars, h10]

theorem twoChars_ne (n : Nat) : ¬(twoChars n = []) := by
  by_cases h10 : n < 10 <;> simp [twoChars, h10]

theorem takeDigits2_comma {n : Nat} (h : n ≤ 99) :
    ∀ r, takeDigits 2 (twoChars n ++ ',' :: r) = (twoChars n, ',' :: r) := fun r =>
  takeDigits_stop _ _ _ _ (twoChars_digits h) twoChars_length (by decide)

theorem takeDigits2_rparen {n : Nat} (h : n ≤ 99) :
    ∀ r, takeDigits 2 (twoChars n ++ ')' :: r) = (twoChars n, ')' :: r) := fun r =>
  takeDigits_stop _ _ _ _ (twoChars_digits h) twoChars_length (by decide)

theorem dropSpaces_yearChars {y : Nat} (h : y ≤ 9999) (r : List Char) :
    dropSpaces (yearChars y ++ r) = yearChars y ++ r := by
  simp only [yearChars, List.cons_append]
  exact dropSpaces_of (digitChar_not_space (by omega)) _

theorem dropSpaces_twoChars {n : Nat} (h : n ≤ 99) (r : List Char) :
    dropSpaces (twoChars n ++ r) = twoChars n ++ r := by
  by_cases h10 : n < 10
  · simp only [twoChars, if_pos h10, List.cons_append, List.nil_append]
    exact dropSpaces_of (digitChar_not_space (by omega)) _
  · simp only [twoChars, if_neg h10, List.cons_append, List.nil_append]
    exact dropSpaces_of (digitChar_not_space (by omega)) _

theorem digitsVal_yearChars {y : Nat} (h : y ≤ 9999) : digitsVal (yearChars y) = y := by
  have h1 : y / 1000 ≤ 9 := by omega
  have h2 : y / 100 % 10 ≤ 9 := by omega
  have h3 : y / 10 % 10 ≤ 9 := by omega
  have h4 : y % 10 ≤ 9 := by omega
  simp only [digitsVal, yearChars, List.foldl_cons, List.foldl_nil,
    digitChar_toNat h1, digitChar_toNat h2, digitChar_toNat h3,
    digitChar_toNat h4]
  omega

theorem digitsVal_twoChars {n : Nat} (h : n ≤ 99) : digitsVal (twoChars n) = n := by
  by_cases h10 : n < 10
  · simp only [twoChars, if_pos h10, digitsVal, List.foldl_cons, List.foldl_nil,
      digitChar_toNat (by omega : n ≤ 9)]
    omega
  · have h1 : n / 10 ≤ 9 := by omega
    have h2 : n % 10 ≤ 9 := by omega
    simp only [twoChars, if_neg h10, digitsVal, List.foldl_cons, List.foldl_nil,
      digitChar_toNat h1, digitChar_toNat h2]
    omega

/-- The matcher succeeds at the start of any string whose head is the exact
key form, capturing the symbol and the three integers; whatever follows the
closing parenthesis is ignored (`re.search` never requires the end of the
string). -/
theorem matchAt_rawKey {sym : List Char} {y m d : Nat} (post : List Char)
    (hq : quoteChar ∉ sym) (hy2 : y ≤ 9999) (hm2 : m ≤ 99) (hd2 : d ≤ 99) :
    matchAt (rawKeyChars sym y m d post) = some (String.mk sym, y, m, d) := by
  simp [rawKeyChars, matchAt, dtLit, expectC_self, Option.some_bind, dropSpaces_quote,
    spanNQ_append hq, dropSpaces_comma, dropSpaces_space, dropSpaces_d,
    expectS_dtLit, dropSpaces_lparen, dropSpaces_rparen, dropSpaces_yearChars hy2,
    takeDigits4_year hy2, length_yearChars, dropSpaces_twoChars hm2,
    dropSpaces_twoChars hd2, takeDigits2_comma hm2, takeDigits2_rparen hd2,
    twoChars_length_ne, twoChars_ne, digitsVal_yearChars hy2,
    digitsVal_twoChars hm2, digitsVal_twoChars hd2]

theorem reSearch_rawKey {sym : List Char} {y m d : Nat} (post : List Char)
    (hq : quoteChar ∉ sym) (hy2 : y ≤ 9999) (hm2 : m ≤ 99) (hd2 : d ≤ 99) :
    reSearch (rawKeyChars sym y m d post) = some (String.mk sym, y, m, d) := by
  have h := matchAt_rawKey post hq hy2 hm2 hd2
  rw [rawKeyChars] at h ⊢
  rw [reSearch, h]

theorem daysInMonth_le (y m : Nat) : daysInMonth y m ≤ 31 := by
  unfold daysInMonth
  split_ifs <;> omega

theorem validYMD_bounds {y m d : Nat} (h : validYMD y m d = true) :
    1 ≤ y ∧ y ≤ 9999 ∧ 1 ≤ m ∧ m ≤ 12 ∧ 1 ≤ d ∧ d ≤ daysInMonth y m := by
  simp only [validYMD, Bool.and_eq_true, decide_eq_true_eq] at h
  tauto

/-- The Key Parser succeeds on the exact textual key form, for any trailing
text after the closing parenthesis. -/
theorem parse_rawKey {sym : String} {y m d : Nat} (post : List Char)
    (hq : quoteChar ∉ sym.data) (hv : validYMD y m d = true) :
    parse_datetime_from_string_key (String.mk (rawKeyChars sym.data y m d post)) =
      some (sym, ⟨y, m, d⟩) := by
  obtain ⟨_, hy2, _, hm2, _, hd2⟩ := validYMD_bounds hv
  have hm99 : m ≤ 99 := by omega
  have hd99 : d ≤ 99 := le_trans hd2 (le_trans (daysInMonth_le y m) (by omega))
  unfold parse_datetime_from_string_key
  rw [show (String.mk (rawKeyChars sym.data y m d post)).data =
      rawKeyChars sym.data y m d post from rfl]
  rw [reSearch_rawKey post hq hy2 hm99 hd99]
  simp [pyDate?, hv]

/-! ## Association-list lemmas -/

theorem alLookup_alIns_self [DecidableEq α] {β : Type} (m : AL α β) (k : α) (v : β) :
    alLookup (alIns m k v) k = some v := by
  induction m with
  | nil => simp [alIns, alLookup]
  | cons p t ih =>
    obtain ⟨k', v'⟩ := p
    by_cases h : k' = k
    · simp [alIns, h, alLookup]
    · simp [alIns, h, alLookup, ih]

theorem alLookup_alIns_ne [DecidableEq α] {β : Type} (m : AL α β) {k k' : α} (v : β)
    (h : k' ≠ k) : alLookup (alIns m k v) k' = alLookup m k' := by
  induction m with
  | nil => simp [alIns, alLookup, Ne.symm h]
  | cons p t ih =>
    obtain ⟨k0, v0⟩ := p
    by_cases h0 : k0 = k
    · subst h0
      simp [alIns, alLookup, Ne.symm h]
    · simp [alIns, h0, alLookup, ih]

theorem alGetD_alIns_self [DecidableEq α] {β : Type} (m : AL α β) (k : α) (v dflt : β) :
    alGetD (alIns m k v) k dflt = v := by
  simp [alGetD, alLookup_alIns_self]

theorem alLookup_alModify_self [DecidableEq α] {β : Type} (m : AL α β) (k : α)
    (dflt : β) (f : β → β) :
    alLookup (alModify m k dflt f) k = some (f (alGetD m k dflt)) :=
  alLookup_alIns_self m k _

theorem alLookup_alModify_ne [DecidableEq α] {β : Type} (m : AL α β) {k k' : α}
    (dflt : β) (f : β → β) (h : k' ≠ k) :
    alLookup (alModify m k dflt f) k' = alLookup m k' :=
  alLookup_alIns_ne m _ h

theorem keys_alIns [DecidableEq α] {β : Type} (m : AL α β) (k : α) (v : β) :
    (alIns m k v).map Prod.fst =
      if k ∈ m.map Prod.fst then m.map Prod.fst else m.map Prod.fst ++ [k] := by
  induction m with
  | nil => simp [alIns]
  | cons p t ih =>
    obtain ⟨k0, v0⟩ := p
    by_cases h0 : k0 = k
    · simp [alIns, h0]
    · have hne : ¬(k = k0) := fun hh => h0 hh.symm
      simp [alIns, h0, ih, hne]
      by_cases hm : k ∈ t.map Prod.fst <;> simp [hm, hne]

theorem alLookup_eq_none [DecidableEq α] {β : Type} (m : AL α β) (k : α) :
    alLookup m k = none ↔ k ∉ m.map Prod.fst := by
  induction m with
  | nil => simp [alLookup]
  | cons p t ih =>
    obtain ⟨k0, v0⟩ := p
    by_cases h0 : k0 = k
    · simp [alLookup, h0]
    · have hne : ¬(k = k0) := fun hh => h0 hh.symm
      simp [alLookup, h0, ih, hne]

theorem alLookup_mem [DecidableEq α] {β : Type} {m : AL α β} {k : α} {v : β}
    (h : alLookup m k = some v) : (k, v) ∈ m := by
  induction m with
  | nil => simp [alLookup] at h
  | cons p t ih =>
    obtain ⟨k0, v0⟩ := p
    by_cases h0 : k0 = k
    · subst h0
      simp [alLookup] at h
      simp [h]
    · simp [alLookup, h0] at h
      exact List.mem_cons_of_mem _ (ih h)

theorem alModify_nil [DecidableEq α] {β : Type} (k : α) (dflt : β) (f : β → β) :
    alModify ([] : AL α β) k dflt f = [(k, f dflt)] := by
  simp [alModify, alGetD, alLookup, alIns]

theorem alModify_cons_self [DecidableEq α] {β : Type} (t : AL α β) (k : α)
    (v0 dflt : β) (f : β → β) :
    alModify ((k, v0) :: t) k dflt f = (k, f v0) :: t := by
  simp [alModify, alGetD, alLookup, alIns]

theorem alModify_cons_ne [DecidableEq α] {β : Type} (t : AL α β) {k0 k : α}
    (v0 : β) (dflt : β) (f : β → β) (h : k0 ≠ k) :
    alModify ((k0, v0) :: t) k dflt f = (k0, v0) :: alModify t k dflt f := by
  simp [alModify, alGetD, alLookup, alIns, h, Ne.symm h]

theorem mem_alIns [DecidableEq α] {β : Type} {m : AL α β} {k : α} {v : β} {p : α × β}
    (h : p ∈ alIns m k v) : p ∈ m ∨ p = (k, v) := by
  induction m with
  | nil => simp [alIns] at h; simp [h]
  | cons q t ih =>
    obtain ⟨k0, v0⟩ := q
    by_cases h0 : k0 = k
    · subst h0
      simp [alIns] at h
      rcases h with h | h
      · right; simp [h]
      · left; simp [h]
    · simp [alIns, h0] at h
      rcases h with h | h
      · left; simp [h]
      · rcases ih h with h1 | h1
        · left; simp [h1]
        · right; exact h1

theorem keys_alModify [DecidableEq α] {β : Type} (m : AL α β) (k : α) (dflt : β)
    (f : β → β) :
    (alModify m k dflt f).map Prod.fst =
      if k ∈ m.map Prod.fst then m.map Prod.fst else m.map Prod.fst ++ [k] :=
  keys_alIns m k _

/-! ## Counting leaf entries: `toFinset` of the key sets -/

theorem toFinset_keys1_alIns (cm : AL Date Json) (d : Date) (v : Json) :
    (keys1 (alIns cm d v)).toFinset = (keys1 cm).toFinset ∪ {d} := by
  unfold keys1
  rw [keys_alIns]
  by_cases h : d ∈ cm.map Prod.fst
  · rw [if_pos h, Finset.union_comm, ← Finset.insert_eq,
      Finset.insert_eq_self.mpr (List.mem_toFinset.mpr h)]
  · rw [if_neg h, List.toFinset_append]
    simp

theorem WF1_alIns {cm : AL Date Json} (d : Date) (v : Json) (h : WF1 cm) :
    WF1 (alIns cm d v) := by
  unfold WF1 keys1 at *
  rw [keys_alIns]
  by_cases hm : d ∈ cm.map Prod.fst
  · rw [if_pos hm]; exact h
  · rw [if_neg hm, List.nodup_append]
    refine ⟨h, List.nodup_singleton d, ?_⟩
    intro x hx hx2
    simp at hx2
    subst hx2
    exact hm hx

theorem WF1_nil : WF1 [] := by simp [WF1, keys1]

theorem toFinset_keys1_dictUpdate (cd : AL Date Json) :
    ∀ cm, (keys1 (dictUpdate cm cd)).toFinset =
      (keys1 cm).toFinset ∪ (keys1 cd).toFinset := by
  induction cd with
  | nil => intro cm; simp [dictUpdate, keys1]
  | cons q t ih =>
    intro cm
    obtain ⟨d, v⟩ := q
    have step : dictUpdate cm ((d, v) :: t) = dictUpdate (alIns cm d v) t := rfl
    rw [step, ih, toFinset_keys1_alIns]
    ext x
    simp [keys1]
    tauto

theorem WF1_dictUpdate (cd : AL Date Json) :
    ∀ cm, WF1 cm → WF1 (dictUpdate cm cd) := by
  induction cd with
  | nil => intro cm h; exact h
  | cons q t ih =>
    intro cm h
    obtain ⟨d, v⟩ := q
    exact ih _ (WF1_alIns d v h)

theorem keys2_nil : keys2 [] = [] := rfl

theorem keys2_cons (c : String) (cm : AL Date Json) (t : AL String (AL Date Json)) :
    keys2 ((c, cm) :: t) = (keys1 cm).map (fun d => (c, d)) ++ keys2 t := by
  simp [keys2]

theorem keys3_nil : keys3 [] = [] := rfl

theorem keys3_cons (s : String) (sd : AL String (AL Date Json)) (t : HistMap) :
    keys3 ((s, sd) :: t) = (keys2 sd).map (fun cd => (s, cd.1, cd.2)) ++ keys3 t := by
  simp [keys3]

theorem toFinset_keys2_alModify (c : String) (f : AL Date Json → AL Date Json)
    (S : Finset Date)
    (hf : ∀ cm, (keys1 (f cm)).toFinset = (keys1 cm).toFinset ∪ S) :
    ∀ sd, (keys2 (alModify sd c [] f)).toFinset =
      (keys2 sd).toFinset ∪ S.image (fun d => (c, d)) := by
  intro sd
  induction sd with
  | nil =>
    rw [alModify_nil, keys2_cons, keys2_nil]
    have hf' : ∀ dd : Date, dd ∈ keys1 (f []) ↔ dd ∈ S := by
      intro dd
      have h := Finset.ext_iff.mp (hf []) dd
      simpa [keys1] using h
    ext x
    simp only [List.append_nil, List.mem_toFinset, List.mem_map, List.toFinset_nil,
      Finset.mem_union, Finset.mem_image, Finset.not_mem_empty, false_or]
    constructor
    · rintro ⟨dd, hdd, rfl⟩
      exact ⟨dd, (hf' dd).mp hdd, rfl⟩
    · rintro ⟨dd, hdd, rfl⟩
      exact ⟨dd, (hf' dd).mpr hdd, rfl⟩
  | cons p t ih =>
    obtain ⟨c0, cm0⟩ := p
    by_cases h0 : c0 = c
    · subst h0
      rw [alModify_cons_self, keys2_cons, keys2_cons]
      have hf' : ∀ dd : Date, dd ∈ keys1 (f cm0) ↔ dd ∈ keys1 cm0 ∨ dd ∈ S := by
        intro dd
        have h := Finset.ext_iff.mp (hf cm0) dd
        simpa using h
      ext x
      simp only [List.toFinset_append, Finset.mem_union, List.mem_toFinset,
        List.mem_map, Finset.mem_image]
      constructor
      · rintro (⟨dd, hdd, rfl⟩ | hx)
        · rcases (hf' dd).mp hdd with h1 | h1
          · exact Or.inl (Or.inl ⟨dd, h1, rfl⟩)
          · exact Or.inr ⟨dd, h1, rfl⟩
        · exact Or.inl (Or.inr hx)
      · rintro ((⟨dd, hdd, rfl⟩ | hx) | ⟨dd, hdd, rfl⟩)
        · exact Or.inl ⟨dd, (hf' dd).mpr (Or.inl hdd), rfl⟩
        · exact Or.inr hx
        · exact Or.inl ⟨dd, (hf' dd).mpr (Or.inr hdd), rfl⟩
    · rw [alModify_cons_ne _ _ _ _ h0, keys2_cons, keys2_cons,
        List.toFinset_append, List.toFinset_append, ih]
      exact (Finset.union_assoc _ _ _).symm

theorem WF2_nil : WF2 [] := ⟨by simp, by simp⟩

theorem HistWF_nil : HistWF [] := ⟨by simp, by simp⟩

theorem alGetD_WF1 {sd : AL String (AL Date Json)} (hw : WF2 sd) (c : String) :
    WF1 (alGetD sd c []) := by
  unfold alGetD
  cases h : alLookup sd c with
  | none => simpa using WF1_nil
  | some cm =>
    simp only [Option.getD_some]
    exact hw.2 (c, cm) (alLookup_mem h)

theorem WF2_alModify {sd : AL String (AL Date Json)} (c : String)
    (f : AL Date Json → AL Date Json)
    (hfp : ∀ cm, WF1 cm → WF1 (f cm)) (hw : WF2 sd) :
    WF2 (alModify sd c [] f) := by
  constructor
  · rw [keys_alModify]
    by_cases h : c ∈ sd.map Prod.fst
    · rw [if_pos h]; exact hw.1
    · rw [if_neg h, List.nodup_append]
      refine ⟨hw.1, List.nodup_singleton c, ?_⟩
      intro x hx hx2
      simp at hx2
      subst hx2
      exact h hx
  · intro p hp
    rcases mem_alIns hp with h1 | h1
    · exact hw.2 p h1
    · rw [h1]
      exact hfp _ (alGetD_WF1 hw c)

theorem toFinset_keys2_mergeSym (sd : AL String (AL Date Json)) :
    ∀ sm, (keys2 (mergeSym sm sd)).toFinset =
      (keys2 sm).toFinset ∪ (keys2 sd).toFinset := by
  induction sd with
  | nil => intro sm; simp [mergeSym, keys2_nil]
  | cons p t ih =>
    intro sm
    obtain ⟨c, cd⟩ := p
    have step : mergeSym sm ((c, cd) :: t) =
        mergeSym (alModify sm c [] (fun cm => dictUpdate cm cd)) t := rfl
    rw [step, ih,
      toFinset_keys2_alModify c _ ((keys1 cd).toFinset)
        (fun cm => toFinset_keys1_dictUpdate cd cm),
      keys2_cons, List.toFinset_append]
    ext x
    simp only [Finset.mem_union, Finset.mem_image, List.mem_toFinset, List.mem_map]
    aesop

theorem WF2_mergeSym (sd : AL String (AL Date Json)) :
    ∀ sm, WF2 sm → WF2 (mergeSym sm sd) := by
  induction sd with
  | nil => intro sm h; exact h
  | cons p t ih =>
    intro sm h
    obtain ⟨c, cd⟩ := p
    exact ih _ (WF2_alModify c _ (fun cm hcm => WF1_dictUpdate cd cm hcm) h)

theorem toFinset_keys3_alModify (s : String)
    (g : AL String (AL Date Json) → AL String (AL Date Json))
    (S2 : Finset (String × Date))
    (hg : ∀ sm, (keys2 (g sm)).toFinset = (keys2 sm).toFinset ∪ S2) :
    ∀ M, (keys3 (alModify M s [] g)).toFinset =
      (keys3 M).toFinset ∪ S2.image (fun cd => (s, cd.1, cd.2)) := by
  intro M
  induction M with
  | nil =>
    rw [alModify_nil, keys3_cons, keys3_nil]
    have hg' : ∀ cd : String × Date, cd ∈ keys2 (g []) ↔ cd ∈ S2 := by
      intro cd
      have h := Finset.ext_iff.mp (hg []) cd
      simpa [keys2_nil] using h
    ext x
    simp only [List.append_nil, List.mem_toFinset, List.mem_map, List.toFinset_nil,
      Finset.mem_union, Finset.mem_image, Finset.not_mem_empty, false_or]
    constructor
    · rintro ⟨cd, hcd, rfl⟩
      exact ⟨cd, (hg' cd).mp hcd, rfl⟩
    · rintro ⟨cd, hcd, rfl⟩
      exact ⟨cd, (hg' cd).mpr hcd, rfl⟩
  | cons p t ih =>
    obtain ⟨s0, sd0⟩ := p
    by_cases h0 : s0 = s
    · subst h0
      rw [alModify_cons_self, keys3_cons, keys3_cons]
      have hg' : ∀ cd : String × Date,
          cd ∈ keys2 (g sd0) ↔ cd ∈ keys2 sd0 ∨ cd ∈ S2 := by
        intro cd
        have h := Finset.ext_iff.mp (hg sd0) cd
        simpa using h
      ext x
      simp only [List.toFinset_append, Finset.mem_union, List.mem_toFinset,
        List.mem_map, Finset.mem_image]
      constructor
      · rintro (⟨cd, hcd, rfl⟩ | hx)
        · rcases (hg' cd).mp hcd with h1 | h1
          · exact Or.inl (Or.inl ⟨cd, h1, rfl⟩)
          · exact Or.inr ⟨cd, h1, rfl⟩
        · exact Or.inl (Or.inr hx)
      · rintro ((⟨cd, hcd, rfl⟩ | hx) | ⟨cd, hcd, rfl⟩)
        · exact Or.inl ⟨cd, (hg' cd).mpr (Or.inl hcd), rfl⟩
        · exact Or.inr hx
        · exact Or.inl ⟨cd, (hg' cd).mpr (Or.inr hcd), rfl⟩
    · rw [alModify_cons_ne _ _ _ _ h0, keys3_cons, keys3_cons,
        List.toFinset_append, List.toFinset_append, ih]
      exact (Finset.union_assoc _ _ _).symm

theorem alGetD_WF2 {M : HistMap} (hw : HistWF M) (s : String) :
    WF2 (alGetD M s []) := by
  unfold alGetD
  cases h : alLookup M s with
  | none => simpa using WF2_nil
  | some sd =>
    simp only [Option.getD_some]
    exact hw.2 (s, sd) (alLookup_mem h)

theorem HistWF_alModify {M : HistMap} (s : String)
    (g : AL String (AL Date Json) → AL String (AL Date Json))
    (hgp : ∀ sm, WF2 sm → WF2 (g sm)) (hw : HistWF M) :
    HistWF (alModify M s [] g) := by
  constructor
  · rw [keys_alModify]
    by_cases h : s ∈ M.map Prod.fst
    · rw [if_pos h]; exact hw.1
    · rw [if_neg h, List.nodup_append]
      refine ⟨hw.1, List.nodup_singleton s, ?_⟩
      intro x hx hx2
      simp at hx2
      subst hx2
      exact h hx
  · intro p hp
    rcases mem_alIns hp with h1 | h1
    · exact hw.2 p h1
    · rw [h1]
      exact hgp _ (alGetD_WF2 hw s)

theorem toFinset_keys3_mergeHist (m : HistMap) :
    ∀ M, (keys3 (mergeHist M m)).toFinset = (keys3 M).toFinset ∪ (keys3 m).toFinset := by
  induction m with
  | nil => intro M; simp [mergeHist, keys3_nil]
  | cons p t ih =>
    intro M
    obtain ⟨s, sd⟩ := p
    have step : mergeHist M ((s, sd) :: t) =
        mergeHist (alModify M s [] (fun sm => mergeSym sm sd)) t := rfl
    rw [step, ih,
      toFinset_keys3_alModify s _ ((keys2 sd).toFinset)
        (fun sm => toFinset_keys2_mergeSym sd sm),
      keys3_cons, List.toFinset_append]
    ext x
    simp only [Finset.mem_union, Finset.mem_image, List.mem_toFinset, List.mem_map]
    aesop

theorem HistWF_mergeHist (m : HistMap) :
    ∀ M, HistWF M → HistWF (mergeHist M m) := by
  induction m with
  | nil => intro M h; exact h
  | cons p t ih =>
    intro M h
    obtain ⟨s, sd⟩ := p
    exact ih _ (HistWF_alModify s _ (fun sm hsm => WF2_mergeSym sd sm hsm) h)

theorem toFinset_keys3_ins3 (M : HistMap) (e : String × String × Date × Json) :
    (keys3 (ins3 M e)).toFinset = (keys3 M).toFinset ∪ {trip e} := by
  obtain ⟨s, c, d, v⟩ := e
  have hg : ∀ sm, (keys2 (alModify sm c [] (fun cm => alIns cm d v))).toFinset =
      (keys2 sm).toFinset ∪ ({d} : Finset Date).image (fun dd => (c, dd)) := by
    intro sm
    rw [toFinset_keys2_alModify c _ {d} (fun cm => toFinset_keys1_alIns cm d v) sm]
  have step : ins3 M (s, c, d, v) =
      alModify M s [] (fun sm => alModify sm c [] (fun cm => alIns cm d v)) := rfl
  rw [step, toFinset_keys3_alModify s _ _ hg M]
  simp [trip]

theorem HistWF_ins3 {M : HistMap} (hw : HistWF M) (e : String × String × Date × Json) :
    HistWF (ins3 M e) := by
  obtain ⟨s, c, d, v⟩ := e
  exact HistWF_alModify s _
    (fun sm hsm => WF2_alModify c _ (fun cm hcm => WF1_alIns d v hcm) hsm) hw

theorem foldl_ins3_spec (L : List (String × String × Date × Json)) :
    ∀ M, HistWF M → HistWF (L.foldl ins3 M) ∧
      (keys3 (L.foldl ins3 M)).toFinset = (keys3 M).toFinset ∪ (L.map trip).toFinset := by
  induction L with
  | nil => intro M hw; exact ⟨hw, by simp⟩
  | cons e t ih =>
    intro M hw
    obtain ⟨hw2, hk⟩ := ih (ins3 M e) (HistWF_ins3 hw e)
    refine ⟨hw2, ?_⟩
    have step : (e :: t).foldl ins3 M = t.foldl ins3 (ins3 M e) := rfl
    rw [step, hk, toFinset_keys3_ins3]
    ext x
    simp only [Finset.mem_union, Finset.mem_singleton, List.map_cons, List.toFinset_cons,
      Finset.mem_insert, List.mem_toFinset]
    tauto

/-! ## No duplicate key triples in a well-formed mapping -/

theorem mem_keys2_fst {sd : AL String (AL Date Json)} {x : String × Date}
    (h : x ∈ keys2 sd) : x.1 ∈ sd.map Prod.fst := by
  simp only [keys2, List.mem_flatMap, List.mem_map] at h
  obtain ⟨p, hp, dd, _, rfl⟩ := h
  exact List.mem_map.mpr ⟨p, hp, rfl⟩

theorem mem_keys3_fst {M : HistMap} {x : String × String × Date}
    (h : x ∈ keys3 M) : x.1 ∈ M.map Prod.fst := by
  simp only [keys3, List.mem_flatMap, List.mem_map] at h
  obtain ⟨p, hp, cd, _, rfl⟩ := h
  exact List.mem_map.mpr ⟨p, hp, rfl⟩

theorem nodup_keys2 {sd : AL String (AL Date Json)} (hw : WF2 sd) :
    (keys2 sd).Nodup := by
  induction sd with
  | nil => simp [keys2]
  | cons p t ih =>
    obtain ⟨c, cm⟩ := p
    have h1 : c ∉ t.map Prod.fst ∧ (t.map Prod.fst).Nodup := by
      have := hw.1
      simp only [List.map_cons, List.nodup_cons] at this
      exact this
    rw [keys2_cons, List.nodup_append]
    refine ⟨?_, ih ⟨h1.2, fun q hq => hw.2 q (List.mem_cons_of_mem _ hq)⟩, ?_⟩
    · refine List.Nodup.map ?_ (hw.2 (c, cm) (List.mem_cons_self _ _))
      intro a b hab
      simpa using hab
    · intro x hx hx2
      simp only [List.mem_map] at hx
      obtain ⟨dd, _, rfl⟩ := hx
      have := mem_keys2_fst hx2
      exact h1.1 this

theorem nodup_keys3 {M : HistMap} (hw : HistWF M) : (keys3 M).Nodup := by
  induction M with
  | nil => simp [keys3]
  | cons p t ih =>
    obtain ⟨s, sd⟩ := p
    have h1 : s ∉ t.map Prod.fst ∧ (t.map Prod.fst).Nodup := by
      have := hw.1
      simp only [List.map_cons, List.nodup_cons] at this
      exact this
    rw [keys3_cons, List.nodup_append]
    refine ⟨?_, ih ⟨h1.2, fun q hq => hw.2 q (List.mem_cons_of_mem _ hq)⟩, ?_⟩
    · refine List.Nodup.map ?_ (nodup_keys2 (hw.2 (s, sd) (List.mem_cons_self _ _)))
      intro a b hab
      simpa [Prod.ext_iff] using hab
    · intro x hx hx2
      simp only [List.mem_map] at hx
      obtain ⟨cd, _, rfl⟩ := hx
      have := mem_keys3_fst hx2
      exact h1.1 this

theorem leafCount_eq_card {M : HistMap} (hw : HistWF M) :
    leafCount M = (keys3 M).toFinset.card := by
  rw [leafCount, List.toFinset_card_of_nodup (nodup_keys3 hw)]

/-! ## Last-write-wins lookups through the merge loops -/

theorem alGetD_alModify_self [DecidableEq α] {β : Type} (m : AL α β) (k : α)
    (dflt dflt2 : β) (f : β → β) :
    alGetD (alModify m k dflt f) k dflt2 = f (alGetD m k dflt) := by
  rw [show alGetD (alModify m k dflt f) k dflt2 =
    (alLookup (alModify m k dflt f) k).getD dflt2 from rfl, alLookup_alModify_self]
  rfl

theorem alLookup_dictUpdate_none {cd : AL Date Json} {x : Date}
    (h : alLookup cd x = none) :
    ∀ cm, alLookup (dictUpdate cm cd) x = alLookup cm x := by
  induction cd with
  | nil => intro cm; rfl
  | cons q t ih =>
    intro cm
    obtain ⟨k, v⟩ := q
    by_cases hk : k = x
    · subst hk; simp [alLookup] at h
    · simp only [alLookup, if_neg hk] at h
      have step : dictUpdate cm ((k, v) :: t) = dictUpdate (alIns cm k v) t := rfl
      rw [step, ih h, alLookup_alIns_ne _ _ (fun hh => hk hh.symm)]

theorem alLookup_dictUpdate_some {cd : AL Date Json} {x : Date} {v : Json}
    (hn : (cd.map Prod.fst).Nodup) (h : alLookup cd x = some v) :
    ∀ cm, alLookup (dictUpdate cm cd) x = some v := by
  induction cd with
  | nil => intro cm; simp [alLookup] at h
  | cons q t ih =>
    intro cm
    obtain ⟨k, v0⟩ := q
    have hn2 : (t.map Prod.fst).Nodup ∧ k ∉ t.map Prod.fst := by
      simp only [List.map_cons, List.nodup_cons] at hn
      exact ⟨hn.2, hn.1⟩
    by_cases hk : k = x
    · subst hk
      simp [alLookup] at h
      have hx : alLookup t k = none := (alLookup_eq_none t k).mpr hn2.2
      have step : dictUpdate cm ((k, v0) :: t) = dictUpdate (alIns cm k v0) t := rfl
      rw [step, alLookup_dictUpdate_none hx, alLookup_alIns_self, h]
    · simp only [alLookup, if_neg hk] at h
      have step : dictUpdate cm ((k, v0) :: t) = dictUpdate (alIns cm k v0) t := rfl
      rw [step, ih hn2.1 h]

theorem lookup2_eq_getD (sm : AL String (AL Date Json)) (c : String) (d : Date) :
    lookup2 sm c d = alLookup (alGetD sm c []) d := by
  unfold lookup2 alGetD
  cases alLookup sm c <;> simp [alLookup]

theorem lookup2_alModify_ne {sm : AL String (AL Date Json)} {c c0 : String}
    (f : AL Date Json → AL Date Json) (h : c ≠ c0) (d : Date) :
    lookup2 (alModify sm c0 [] f) c d = lookup2 sm c d := by
  unfold lookup2
  rw [alLookup_alModify_ne _ _ _ h]

theorem lookup2_mergeSym_none {sd : AL String (AL Date Json)} (hw : WF2 sd)
    {c : String} {d : Date} (h : lookup2 sd c d = none) :
    ∀ sm, lookup2 (mergeSym sm sd) c d = lookup2 sm c d := by
  induction sd with
  | nil => intro sm; rfl
  | cons p t ih =>
    intro sm
    obtain ⟨c0, cd0⟩ := p
    have hw2 : WF2 t := by
      refine ⟨?_, fun q hq => hw.2 q (List.mem_cons_of_mem _ hq)⟩
      have := hw.1
      simp only [List.map_cons, List.nodup_cons] at this
      exact this.2
    have hc0 : c0 ∉ t.map Prod.fst := by
      have := hw.1
      simp only [List.map_cons, List.nodup_cons] at this
      exact this.1
    have step : mergeSym sm ((c0, cd0) :: t) =
        mergeSym (alModify sm c0 [] (fun cm => dictUpdate cm cd0)) t := rfl
    by_cases hc : c0 = c
    · subst hc
      have hin : alLookup cd0 d = none := by
        simpa [lookup2, alLookup] using h
      have ht : lookup2 t c0 d = none := by
        unfold lookup2
        rw [(alLookup_eq_none t c0).mpr hc0]
      rw [step, ih hw2 ht, lookup2_eq_getD, alGetD_alModify_self,
        alLookup_dictUpdate_none hin, ← lookup2_eq_getD]
    · have ht : lookup2 t c d = none := by
        simpa [lookup2, alLookup, hc] using h
      rw [step, ih hw2 ht, lookup2_alModify_ne _ (fun hh => hc hh.symm) d]

theorem lookup2_mergeSym_some {sd : AL String (AL Date Json)} (hw : WF2 sd)
    {c : String} {d : Date} {v : Json} (h : lookup2 sd c d = some v) :
    ∀ sm, lookup2 (mergeSym sm sd) c d = some v := by
  induction sd with
  | nil => intro sm; simp [lookup2, alLookup] at h
  | cons p t ih =>
    intro sm
    obtain ⟨c0, cd0⟩ := p
    have hw2 : WF2 t := by
      refine ⟨?_, fun q hq => hw.2 q (List.mem_cons_of_mem _ hq)⟩
      have := hw.1
      simp only [List.map_cons, List.nodup_cons] at this
      exact this.2
    have hc0 : c0 ∉ t.map Prod.fst := by
      have := hw.1
      simp only [List.map_cons, List.nodup_cons] at this
      exact this.1
    have step : mergeSym sm ((c0, cd0) :: t) =
        mergeSym (alModify sm c0 [] (fun cm => dictUpdate cm cd0)) t := rfl
    by_cases hc : c0 = c
    · subst hc
      have hin : alLookup cd0 d = some v := by
        simpa [lookup2, alLookup] using h
      have hwf1 : WF1 cd0 := hw.2 (c0, cd0) (List.mem_cons_self _ _)
      have ht : lookup2 t c0 d = none := by
        unfold lookup2
        rw [(alLookup_eq_none t c0).mpr hc0]
      rw [step, lookup2_mergeSym_none hw2 ht, lookup2_eq_getD, alGetD_alModify_self,
        alLookup_dictUpdate_some hwf1 hin]
    · have ht : lookup2 t c d = some v := by
        simpa [lookup2, alLookup, hc] using h
      rw [step, ih hw2 ht]

theorem lookup3_eq_getD (M : HistMap) (s c : String) (d : Date) :
    lookup3 M s c d = lookup2 (alGetD M s []) c d := by
  unfold lookup3 alGetD
  cases alLookup M s <;> simp [lookup2, alLookup]

theorem lookup3_alModify_ne {M : HistMap} {s s0 : String}
    (g : AL String (AL Date Json) → AL String (AL Date Json)) (h : s ≠ s0)
    (c : String) (d : Date) :
    lookup3 (alModify M s0 [] g) s c d = lookup3 M s c d := by
  unfold lookup3
  rw [alLookup_alModify_ne _ _ _ h]

theorem lookup3_mergeHist_none {m : HistMap} (hw : HistWF m)
    {s c : String} {d : Date} (h : lookup3 m s c d = none) :
    ∀ M, lookup3 (mergeHist M m) s c d = lookup3 M s c d := by
  induction m with
  | nil => intro M; rfl
  | cons p t ih =>
    intro M
    obtain ⟨s0, sd0⟩ := p
    have hw2 : HistWF t := by
      refine ⟨?_, fun q hq => hw.2 q (List.mem_cons_of_mem _ hq)⟩
      have := hw.1
      simp only [List.map_cons, List.nodup_cons] at this
      exact this.2
    have hs0 : s0 ∉ t.map Prod.fst := by
      have := hw.1
      simp only [List.map_cons, List.nodup_cons] at this
      exact this.1
    have step : mergeHist M ((s0, sd0) :: t) =
        mergeHist (alModify M s0 [] (fun sm => mergeSym sm sd0)) t := rfl
    by_cases hs : s0 = s
    · subst hs
      have hin : lookup2 sd0 c d = none := by
        simpa [lookup3, alLookup] using h
      have hwf2 : WF2 sd0 := hw.2 (s0, sd0) (List.mem_cons_self _ _)
      have ht : lookup3 t s0 c d = none := by
        unfold lookup3
        rw [(alLookup_eq_none t s0).mpr hs0]
      rw [step, ih hw2 ht, lookup3_eq_getD, alGetD_alModify_self,
        lookup2_mergeSym_none hwf2 hin, ← lookup3_eq_getD]
    · have ht : lookup3 t s c d = none := by
        simpa [lookup3, alLookup, hs] using h
      rw [step, ih hw2 ht, lookup3_alModify_ne _ (fun hh => hs hh.symm)]

theorem lookup3_mergeHist_some {m : HistMap} (hw : HistWF m)
    {s c : String} {d : Date} {v : Json} (h : lookup3 m s c d = some v) :
    ∀ M, lookup3 (mergeHist M m) s c d = some v := by
  induction m with
  | nil => intro M; simp [lookup3, alLookup] at h
  | cons p t ih =>
    intro M
    obtain ⟨s0, sd0⟩ := p
    have hw2 : HistWF t := by
      refine ⟨?_, fun q hq => hw.2 q (List.mem_cons_of_mem _ hq)⟩
      have := hw.1
      simp only [List.map_cons, List.nodup_cons] at this
      exact this.2
    have hs0 : s0 ∉ t.map Prod.fst := by
      have := hw.1
      simp only [List.map_cons, List.nodup_cons] at this
      exact this.1
    have step : mergeHist M ((s0, sd0) :: t) =
        mergeHist (alModify M s0 [] (fun sm => mergeSym sm sd0)) t := rfl
    by_cases hs : s0 = s
    · subst hs
      have hin : lookup2 sd0 c d = some v := by
        simpa [lookup3, alLookup] using h
      have hwf2 : WF2 sd0 := hw.2 (s0, sd0) (List.mem_cons_self _ _)
      have ht : lookup3 t s0 c d = none := by
        unfold lookup3
        rw [(alLookup_eq_none t s0).mpr hs0]
      rw [step, lookup3_mergeHist_none hw2 ht, lookup3_eq_getD, alGetD_alModify_self,
        lookup2_mergeSym_some hwf2 hin]
    · have ht : lookup3 t s c d = some v := by
        simpa [lookup3, alLookup, hs] using h
      rw [step, ih hw2 ht]

/-! ## The History File Loader as a fold over its recorded events -/

theorem foldl_recordEntry (cat : String) (entries : List (String × Json)) :
    ∀ a : HAcc, entries.foldl (recordEntry cat) a =
      ⟨(entries.filterMap (entryEvent cat)).foldl ins3 a.data,
       (entries.filterMap (entryEvent cat)).foldl (fun l e => setAdd l e.1) a.syms,
       a.items + (entries.filterMap (entryEvent cat)).length⟩ := by
  induction entries with
  | nil => intro a; cases a; simp
  | cons kv t ih =>
    intro a
    cases hp : parse_datetime_from_string_key kv.1 with
    | none =>
      have hre : recordEntry cat a kv = a := by simp [recordEntry, hp]
      have hev : entryEvent cat kv = none := by simp [entryEvent, hp]
      rw [List.foldl_cons, hre, ih, List.filterMap_cons, hev]
    | some p =>
      obtain ⟨sym, dt⟩ := p
      by_cases hs : sym = ""
      · have hre : recordEntry cat a kv = a := by simp [recordEntry, hp, hs]
        have hev : entryEvent cat kv = none := by simp [entryEvent, hp, hs]
        rw [List.foldl_cons, hre, ih, List.filterMap_cons, hev]
      · have hre : recordEntry cat a kv =
            ⟨ins3 a.data (sym, cat, dt, kv.2), setAdd a.syms sym, a.items + 1⟩ := by
          simp [recordEntry, hp, hs]
        have hev : entryEvent cat kv = some (sym, cat, dt, kv.2) := by
          simp [entryEvent, hp, hs]
        rw [List.foldl_cons, hre, ih, List.filterMap_cons, hev]
        simp only [List.foldl_cons, List.length_cons, HAcc.mk.injEq,
          eq_self_iff_true, true_and]
        omega

theorem foldl_processCat (kvs : List (String × Json)) :
    ∀ a : HAcc, kvs.foldl processCat a =
      ⟨(histEvents kvs).foldl ins3 a.data,
       (histEvents kvs).foldl (fun l e => setAdd l e.1) a.syms,
       a.items + (histEvents kvs).length⟩ := by
  induction kvs with
  | nil => intro a; cases a; simp [histEvents]
  | cons ckv t ih =>
    intro a
    have hcat : processCat a ckv =
        ⟨(catEventsOf ckv).foldl ins3 a.data,
         (catEventsOf ckv).foldl (fun l e => setAdd l e.1) a.syms,
         a.items + (catEventsOf ckv).length⟩ := by
      cases hj : ckv.2 with
      | obj entries =>
        rw [show processCat a ckv = entries.foldl (recordEntry ckv.1) a by
          simp [processCat, hj]]
        rw [foldl_recordEntry]
        simp [catEventsOf, hj]
      | null => cases a; simp [processCat, catEventsOf, hj]
      | boolean b => cases a; simp [processCat, catEventsOf, hj]
      | num q => cases a; simp [processCat, catEventsOf, hj]
      | str s => cases a; simp [processCat, catEventsOf, hj]
      | arr xs => cases a; simp [processCat, catEventsOf, hj]
    rw [List.foldl_cons, hcat, ih]
    have hev : histEvents (ckv :: t) = catEventsOf ckv ++ histEvents t := by
      simp [histEvents]
    rw [hev]
    simp only [List.foldl_append, List.length_append, HAcc.mk.injEq,
      eq_self_iff_true, true_and]
    omega

theorem foldl_setAdd_fst (es : List (String × String × Date × Json)) :
    ∀ l, es.foldl (fun l2 e => setAdd l2 e.1) l = (es.map (fun e => e.1)).foldl setAdd l := by
  induction es with
  | nil => intro l; rfl
  | cons e t ih => intro l; simp [List.foldl_cons, ih]

theorem foldl_setAdd_spec (xs : List String) :
    ∀ l, l.Nodup → (xs.foldl setAdd l).Nodup ∧
      (xs.foldl setAdd l).toFinset = l.toFinset ∪ xs.toFinset := by
  induction xs with
  | nil => intro l h; exact ⟨h, by simp⟩
  | cons x t ih =>
    intro l h
    by_cases hx : x ∈ l
    · have hst : setAdd l x = l := by simp [setAdd, hx]
      obtain ⟨h1, h2⟩ := ih l h
      rw [List.foldl_cons, hst]
      refine ⟨h1, ?_⟩
      rw [h2]
      ext z
      simp
      intro hz
      subst hz
      exact Or.inl hx
    · have hst : setAdd l x = x :: l := by simp [setAdd, hx]
      have hnd : (x :: l).Nodup := by simp [List.nodup_cons, hx, h]
      obtain ⟨h1, h2⟩ := ih (x :: l) hnd
      rw [List.foldl_cons, hst]
      refine ⟨h1, ?_⟩
      rw [h2]
      ext z
      simp

theorem length_foldl_setAdd (xs : List String) :
    (xs.foldl setAdd []).length = xs.dedup.length := by
  obtain ⟨hnd, hts⟩ := foldl_setAdd_spec xs [] (by simp)
  have h1 : (xs.foldl setAdd []).length = (xs.foldl setAdd []).toFinset.card :=
    (List.toFinset_card_of_nodup hnd).symm
  rw [h1, hts]
  simp [List.card_toFinset]

/-- The History File Loader on a decoded object, characterised by the list of
its recorded events: the mapping is the fold of the insertions, the distinct
symbol count counts the distinct recorded symbols, and the item count counts
every recorded event. -/
theorem parse_history_file_obj (kvs : List (String × Json)) :
    parse_history_file (.ok (.obj kvs)) =
      .success ((histEvents kvs).foldl ins3 [])
        (((histEvents kvs).map (fun e => e.1)).dedup.length)
        (histEvents kvs).length := by
  show HistResult.success (kvs.foldl processCat ⟨[], [], 0⟩).data
      (kvs.foldl processCat ⟨[], [], 0⟩).syms.length
      (kvs.foldl processCat ⟨[], [], 0⟩).items = _
  rw [foldl_processCat]
  simp only
  rw [foldl_setAdd_fst, length_foldl_setAdd]
  simp

/-! ## The history accumulation loop -/

theorem foldl_aggStep_none (rs : List HistResult) : rs.foldl aggStep none = none := by
  induction rs with
  | nil => rfl
  | cons r t ih =>
    rw [List.foldl_cons, show aggStep none r = none from rfl]
    exact ih

theorem agg_invariant (files : List LoadResult) :
    ∀ (M0 : HistMap) (tot0 n0 : Nat), HistWF M0 →
    ∀ {M : HistMap} {tot n : Nat},
      (files.map parse_history_file).foldl aggStep (some (M0, tot0, n0)) = some (M, tot, n) →
      HistWF M ∧
      (keys3 M).toFinset =
        (keys3 M0).toFinset ∪ ((files.flatMap fileEv).map trip).toFinset ∧
      tot = tot0 + (files.flatMap fileEv).length := by
  induction files with
  | nil =>
    intro M0 tot0 n0 hw M tot n h
    simp only [List.map_nil, List.foldl_nil, Option.some.injEq, Prod.mk.injEq] at h
    obtain ⟨h1, h2, _⟩ := h
    subst h1
    subst h2
    exact ⟨hw, by simp, by simp⟩
  | cons f t ih =>
    intro M0 tot0 n0 hw M tot n h
    have hcons : (f :: t).flatMap fileEv = fileEv f ++ t.flatMap fileEv := by
      simp
    cases f with
    | missing =>
      rw [List.map_cons, List.foldl_cons,
        show aggStep (some (M0, tot0, n0)) (parse_history_file .missing) =
          some (M0, tot0, n0) from rfl] at h
      obtain ⟨hwM, hkeys, htot⟩ := ih M0 tot0 n0 hw h
      exact ⟨hwM, by simpa [fileEv] using hkeys, by simpa [fileEv] using htot⟩
    | badJson =>
      rw [List.map_cons, List.foldl_cons,
        show aggStep (some (M0, tot0, n0)) (parse_history_file .badJson) =
          some (M0, tot0, n0) from rfl] at h
      obtain ⟨hwM, hkeys, htot⟩ := ih M0 tot0 n0 hw h
      exact ⟨hwM, by simpa [fileEv] using hkeys, by simpa [fileEv] using htot⟩
    | ok j =>
      cases j with
      | obj kvs =>
        rw [List.map_cons, List.foldl_cons, parse_history_file_obj,
          show aggStep (some (M0, tot0, n0))
            (.success ((histEvents kvs).foldl ins3 [])
              (((histEvents kvs).map (fun e => e.1)).dedup.length)
              (histEvents kvs).length) =
            some (mergeHist M0 ((histEvents kvs).foldl ins3 []),
              tot0 + (histEvents kvs).length, n0 + 1) from rfl] at h
        obtain ⟨hwM, hkeys, htot⟩ :=
          ih _ _ _ (HistWF_mergeHist ((histEvents kvs).foldl ins3 []) M0 hw) h
        have hfe : fileEv (.ok (.obj kvs)) = histEvents kvs := rfl
        obtain ⟨_, hkm⟩ := foldl_ins3_spec (histEvents kvs) [] HistWF_nil
        refine ⟨hwM, ?_, ?_⟩
        · rw [hkeys, toFinset_keys3_mergeHist, hkm, hcons, hfe]
          ext z
          simp only [Finset.mem_union, List.mem_toFinset, keys3_nil, List.toFinset_nil,
            Finset.not_mem_empty, false_or, List.map_append, List.mem_append]
          tauto
        · rw [htot, hcons, hfe, List.length_append]
          omega
      | null =>
        rw [List.map_cons, List.foldl_cons,
          show aggStep (some (M0, tot0, n0)) (parse_history_file (.ok .null)) =
            none from rfl, foldl_aggStep_none] at h
        exact absurd h (by simp)
      | boolean b =>
        rw [List.map_cons, List.foldl_cons,
          show aggStep (some (M0, tot0, n0)) (parse_history_file (.ok (.boolean b))) =
            none from rfl, foldl_aggStep_none] at h
        exact absurd h (by simp)
      | num q =>
        rw [List.map_cons, List.foldl_cons,
          show aggStep (some (M0, tot0, n0)) (parse_history_file (.ok (.num q))) =
            none from rfl, foldl_aggStep_none] at h
        exact absurd h (by simp)
      | str s =>
        rw [List.map_cons, List.foldl_cons,
          show aggStep (some (M0, tot0, n0)) (parse_history_file (.ok (.str s))) =
            none from rfl, foldl_aggStep_none] at h
        exact absurd h (by simp)
      | arr xs =>
        rw [List.map_cons, List.foldl_cons,
          show aggStep (some (M0, tot0, n0)) (parse_history_file (.ok (.arr xs))) =
            none from rfl, foldl_aggStep_none] at h
        exact absurd h (by simp)

/-! ## Sorting lemmas for the summary reporter -/

theorem dateLe_total (a b : Date) : dateLe a b = true ∨ dateLe b a = true := by
  simp only [dateLe, decide_eq_true_eq]
  omega

theorem dateLe_trans {a b c : Date} (h1 : dateLe a b = true) (h2 : dateLe b c = true) :
    dateLe a c = true := by
  simp only [dateLe, decide_eq_true_eq] at h1 h2 ⊢
  omega

theorem hkLe_trans {a b c : HKey} (h1 : hkLe a b = true) (h2 : hkLe b c = true) :
    hkLe a c = true := by
  cases a with
  | date x =>
    cases b with
    | date y =>
      cases c with
      | date z => exact dateLe_trans h1 h2
      | str s => simp [hkLe] at h2
    | str s => simp [hkLe] at h1
  | str s1 =>
    cases b with
    | date y => simp [hkLe] at h1
    | str s2 =>
      cases c with
      | date z => simp [hkLe] at h2
      | str s3 =>
        simp only [hkLe, decide_eq_true_eq] at h1 h2 ⊢
        exact le_trans h1 h2

theorem sameKind_total {a b : HKey} (h : sameKind a b = true) :
    hkLe a b = true ∨ hkLe b a = true := by
  cases a with
  | date x =>
    cases b with
    | date y => exact dateLe_total x y
    | str s => simp [sameKind] at h
  | str s1 =>
    cases b with
    | date y => simp [sameKind] at h
    | str s2 =>
      simp only [hkLe, decide_eq_true_eq]
      exact le_total s1 s2

theorem sameKind_refl (a : HKey) : sameKind a a = true := by
  cases a <;> rfl

theorem sameKind_symm {a b : HKey} (h : sameKind a b = true) : sameKind b a = true := by
  cases a <;> cases b <;> simp_all [sameKind]

theorem sameKind_trans {a b c : HKey} (h1 : sameKind a b = true)
    (h2 : sameKind b c = true) : sameKind a c = true := by
  cases a <;> cases b <;> cases c <;> simp_all [sameKind]

theorem allComparable_pairwise {l : List HKey} (h : allComparable l = true) :
    ∀ a ∈ l, ∀ b ∈ l, sameKind a b = true := by
  cases l with
  | nil => simp
  | cons k t =>
    intro a ha b hb
    simp only [allComparable, List.all_eq_true] at h
    have hk : ∀ x ∈ k :: t, sameKind k x = true := by
      intro x hx
      rcases List.mem_cons.mp hx with rfl | hx2
      · exact sameKind_refl x
      · exact h x hx2
    exact sameKind_trans (sameKind_symm (hk a ha)) (hk b hb)

theorem insertLe_perm (le : α → α → Bool) (x : α) :
    ∀ l, (insertLe le x l).Perm (x :: l) := by
  intro l
  induction l with
  | nil => simp [insertLe]
  | cons y t ih =>
    by_cases h : le x y
    · simp [insertLe, h]
    · simp only [insertLe, if_neg h]
      exact List.Perm.trans (List.Perm.cons y ih) (List.Perm.swap x y t)

theorem sortLe_perm (le : α → α → Bool) : ∀ l, (sortLe le l).Perm l := by
  intro l
  induction l with
  | nil => simp [sortLe]
  | cons x t ih =>
    simp only [sortLe]
    exact List.Perm.trans (insertLe_perm le x (sortLe le t)) (List.Perm.cons x ih)

theorem pairwise_insertLe {x : HKey} {l : List HKey}
    (htot : ∀ y ∈ l, hkLe x y = true ∨ hkLe y x = true)
    (hp : l.Pairwise (fun a b => hkLe a b = true)) :
    (insertLe hkLe x l).Pairwise (fun a b => hkLe a b = true) := by
  induction l with
  | nil => simp [insertLe]
  | cons y t ih =>
    rcases List.pairwise_cons.mp hp with ⟨hy, ht⟩
    by_cases h : hkLe x y = true
    · rw [show insertLe hkLe x (y :: t) = x :: y :: t by simp [insertLe, h]]
      refine List.pairwise_cons.mpr ⟨?_, hp⟩
      intro z hz
      rcases List.mem_cons.mp hz with rfl | hz2
      · exact h
      · exact hkLe_trans h (hy z hz2)
    · have hyx : hkLe y x = true := by
        rcases htot y (by simp) with h1 | h1
        · exact absurd h1 h
        · exact h1
      rw [show insertLe hkLe x (y :: t) = y :: insertLe hkLe x t by simp [insertLe, h]]
      refine List.pairwise_cons.mpr
        ⟨?_, ih (fun z hz => htot z (by simp [hz])) ht⟩
      intro z hz
      have hz2 := (insertLe_perm hkLe x t).mem_iff.mp hz
      rcases List.mem_cons.mp hz2 with rfl | hz3
      · exact hyx
      · exact hy z hz3

theorem pairwise_sortLe {l : List HKey}
    (hc : ∀ a ∈ l, ∀ b ∈ l, sameKind a b = true) :
    (sortLe hkLe l).Pairwise (fun a b => hkLe a b = true) := by
  induction l with
  | nil => simp [sortLe]
  | cons x t ih =>
    simp only [sortLe]
    refine pairwise_insertLe ?_ (ih ?_)
    · intro y hy
      have hy2 : y ∈ t := (sortLe_perm hkLe t).mem_iff.mp hy
      exact sameKind_total (hc x (by simp) y (by simp [hy2]))
    · intro a ha b hb
      exact hc a (List.mem_cons_of_mem _ ha) b (List.mem_cons_of_mem _ hb)

/-! ## The summary caps -/

theorem entriesAux_spec (cm : AL HKey Json) :
    ∀ (ks : List HKey) (i : Nat), i ≤ 2 →
      entriesAux cm ks i =
        ((ks.take (2 - i)).map (fun k => (k, alGetD cm k Json.null)),
         if 2 - i < ks.length then some (cm.length - 2) else none) := by
  intro ks
  induction ks with
  | nil => intro i h; simp [entriesAux]
  | cons k t ih =>
    intro i h
    by_cases h2 : 2 ≤ i
    · have hi : i = 2 := by omega
      subst hi
      simp [entriesAux]
    · rw [show entriesAux cm (k :: t) i =
        ((k, alGetD cm k Json.null) :: (entriesAux cm t (i + 1)).1,
          (entriesAux cm t (i + 1)).2) by simp [entriesAux, h2]]
      rw [ih (i + 1) (by omega)]
      have htake : (k :: t).take (2 - i) = k :: t.take (2 - (i + 1)) := by
        rw [show 2 - i = (2 - (i + 1)) + 1 by omega]
        rfl
      rw [htake]
      simp only [List.map_cons, List.length_cons]
      by_cases hl : 2 - (i + 1) < t.length
      · rw [if_pos hl, if_pos (show 2 - i < t.length + 1 by omega)]
      · rw [if_neg hl, if_neg (show ¬(2 - i < t.length + 1) by omega)]

theorem blocksAux_spec (total : Nat) :
    ∀ (l : List (String × AL String (AL HKey Json))) (i : Nat), i ≤ 3 →
      blocksAux total l i =
        ((l.take (3 - i)).map
          (fun p => SymBlock.mk p.1 (p.2.map (fun q => catLine q.1 q.2))),
         if 3 - i < l.length then some (total - 3) else none) := by
  intro l
  induction l with
  | nil => intro i h; simp [blocksAux]
  | cons p t ih =>
    intro i h
    obtain ⟨s, sd⟩ := p
    by_cases h2 : 3 ≤ i
    · have hi : i = 3 := by omega
      subst hi
      simp [blocksAux]
    · rw [show blocksAux total ((s, sd) :: t) i =
        (SymBlock.mk s (sd.map (fun q => catLine q.1 q.2)) :: (blocksAux total t (i + 1)).1,
          (blocksAux total t (i + 1)).2) by simp [blocksAux, h2]]
      rw [ih (i + 1) (by omega)]
      have htake : ((s, sd) :: t).take (3 - i) = (s, sd) :: t.take (3 - (i + 1)) := by
        rw [show 3 - i = (3 - (i + 1)) + 1 by omega]
        rfl
      rw [htake]
      simp only [List.map_cons, List.length_cons]
      by_cases hl : 3 - (i + 1) < t.length
      · rw [if_pos hl, if_pos (show 3 - i < t.length + 1 by omega)]
      · rw [if_neg hl, if_neg (show ¬(3 - i < t.length + 1) by omega)]

theorem print_data_summary_spec (h : AL String (AL String (AL HKey Json))) :
    (print_data_summary h).blocks =
      (h.take 3).map (fun p => SymBlock.mk p.1 (p.2.map (fun q => catLine q.1 q.2))) ∧
    (print_data_summary h).moreSymbols =
      (if 3 < h.length then some (h.length - 3) else none) := by
  unfold print_data_summary
  rw [blocksAux_spec h.length h 0 (by omega)]
  constructor
  · rfl
  · simp

theorem catLine_spec (c : String) (cm : AL HKey Json) :
    (catLine c cm).entries.length ≤ 2 ∧
    (catLine c cm).more = (if 2 < cm.length then some (cm.length - 2) else none) ∧
    (allComparable (cm.map Prod.fst) = true →
      (catLine c cm).sortWarn = false ∧
      ((catLine c cm).entries.map Prod.fst).Chain' (fun a b => hkLe a b = true) ∧
      (catLine c cm).entries =
        ((sortLe hkLe (cm.map Prod.fst)).take 2).map
          (fun k => (k, alGetD cm k Json.null))) ∧
    (allComparable (cm.map Prod.fst) = false →
      (catLine c cm).sortWarn = true ∧
      (catLine c cm).entries =
        ((cm.map Prod.fst).take 2).map (fun k => (k, alGetD cm k Json.null))) := by
  by_cases hc : allComparable (cm.map Prod.fst) = true
  · have hcl : catLine c cm =
        ⟨c, false, (entriesAux cm (sortLe hkLe (cm.map Prod.fst)) 0).1,
          (entriesAux cm (sortLe hkLe (cm.map Prod.fst)) 0).2⟩ := by
      simp [catLine, pySortedKeys, hc]
    have hlen : (sortLe hkLe (cm.map Prod.fst)).length = cm.length := by
      rw [(sortLe_perm hkLe (cm.map Prod.fst)).length_eq, List.length_map]
    rw [entriesAux_spec cm _ 0 (by omega)] at hcl
    refine ⟨?_, ?_, ?_, ?_⟩
    · rw [hcl]
      simp only [List.length_map]
      exact le_trans (List.length_take_le _ _) (by omega)
    · rw [hcl]
      simp [hlen]
    · intro _
      refine ⟨by rw [hcl], ?_, by rw [hcl]⟩
      rw [hcl]
      simp only [List.map_map]
      have hmf : ((sortLe hkLe (cm.map Prod.fst)).take 2).map
          (Prod.fst ∘ fun k => (k, alGetD cm k Json.null)) =
          (sortLe hkLe (cm.map Prod.fst)).take 2 := by
        rw [show (Prod.fst ∘ fun k => (k, alGetD cm k Json.null)) = id by
          funext k; rfl]
        simp
      rw [hmf]
      refine List.Pairwise.chain' ?_
      exact (pairwise_sortLe (allComparable_pairwise hc)).sublist
        (List.take_sublist _ _)
    · intro hfalse
      rw [hc] at hfalse
      exact absurd hfalse (by simp)
  · have hcf : allComparable (cm.map Prod.fst) = false := by
      simpa using hc
    have hcl : catLine c cm =
        ⟨c, true, (entriesAux cm (cm.map Prod.fst) 0).1,
          (entriesAux cm (cm.map Prod.fst) 0).2⟩ := by
      simp [catLine, pySortedKeys, hcf]
    rw [entriesAux_spec cm _ 0 (by omega)] at hcl
    refine ⟨?_, ?_, ?_, ?_⟩
    · rw [hcl]
      simp only [List.length_map]
      exact le_trans (List.length_take_le _ _) (by omega)
    · rw [hcl]
      simp
    · intro htrue
      rw [hcf] at htrue
      exact absurd htrue (by simp)
    · intro _
      exact ⟨by rw [hcl], by rw [hcl]⟩

theorem length_flatMap_fileEv (files : List LoadResult) :
    (files.flatMap fileEv).length = (files.map (fun f => (fileEv f).length)).sum := by
  induction files with
  | nil => rfl
  | cons f t ih => simp [ih]

/-! ## Claims -/

/-- C1 (corrected): the Key Parser round-trips the exact textual key form
`('SYM', datetime.date(Y, M, D))` - but only for years written with exactly
four digits (`1000 ≤ Y ≤ 9999`), because the pattern's year group is
`\d{4}`.  For such a year and a valid month/day the parser returns exactly
the symbol and the date built from the three components. -/
theorem parse_exact_key_four_digit_year (sym : String) (y m d : Nat)
    (hq : quoteChar ∉ sym.data) (_hy : 1000 ≤ y) (hv : validYMD y m d = true) :
    parse_datetime_from_string_key (rawKey sym y m d) = some (sym, ⟨y, m, d⟩) :=
  parse_rawKey [] hq hv

/-- C1 witness: the theorem applied at `('MSFT', datetime.date(2023, 12, 25))`. -/
theorem parse_exact_key_four_digit_year_witness :
    quoteChar ∉ "MSFT".data ∧ 1000 ≤ 2023 ∧ validYMD 2023 12 25 = true ∧
    parse_datetime_from_string_key (rawKey "MSFT" 2023 12 25) =
      some ("MSFT", ⟨2023, 12, 25⟩) :=
  ⟨by decide, by decide, by decide,
    parse_exact_key_four_digit_year "MSFT" 2023 12 25 (by decide) (by decide) (by decide)⟩

/-- C1 counterexample: year 999 with month 7 and day 1 is a valid Gregorian
calendar date, and `('SYM', datetime.date(999, 7, 1))` is of the exact form
the claim quantifies over, yet the parser returns no match (the claim
demands `some ("SYM", 999-07-01)`): the year group `\d{4}` does not match a
three-digit year. -/
theorem parse_key_three_digit_year_fails :
    parse_datetime_from_string_key (mkKey "SYM" "999, 7, 1") = none := by decide

/-- C2 (corrected): the History File Loader characterised by its recorded
events.  For every `(rawKey, value)` pair of every object-valued category,
the entry is recorded under `result[symbol][category][date]` and counted
exactly when the Key Parser succeeds AND the parsed symbol is non-empty
(the code tests `if symbol and date_obj:`, and the empty string is falsy in
Python); a parser failure or an empty symbol skips just that entry while
the rest of the file is still processed; `distinctSymbolCount` counts the
distinct recorded symbols of this file alone. -/
theorem history_loader_events_spec (kvs : List (String × Json)) :
    parse_history_file (.ok (.obj kvs)) =
      .success ((histEvents kvs).foldl ins3 [])
        (((histEvents kvs).map (fun e => e.1)).dedup.length)
        (histEvents kvs).length :=
  parse_history_file_obj kvs

/-- C2 counterexample: the Key Parser succeeds on the key
`('', datetime.date(2023, 1, 1))` with the empty symbol, yet the loader
records nothing and counts nothing (the claim says the value is recorded
under `result[""]["close"][2023-01-01]` and the counter incremented). -/
theorem history_loader_skips_empty_symbol :
    parse_history_file (.ok (.obj [("close",
      .obj [(mkKey "" "2023, 1, 1", .num 42)])])) = .success [] 0 0 := by rfl

/-- C3 (code bug): a missing file and undecodable JSON do return the failure
value `(None, 0, 0)`, but when the JSON decodes to a non-object the loader
evaluates `raw_data.items()` without a type check and the resulting
`AttributeError` escapes to the caller instead of being reported and
skipped - contradicting the claim, the spec's structural-mismatch rule and
the function's own docstring. -/
theorem history_loader_error_behavior :
    parse_history_file .missing = .failure ∧
    parse_history_file .badJson = .failure ∧
    parse_history_file (.ok (.arr [.num 1, .num 2])) = .pyError :=
  ⟨rfl, rfl, rfl⟩

/-- C4 (confirmed): the Key Parser returns either a complete
`(symbol, valid date)` pair or no match - every successful result carries a
date that passed `datetime.date` validation - and the three stated failure
families all yield no match: a pattern-level match with an invalid calendar
date (February 30, month 13), a key missing one of the three integer
components, and a non-numeric integer slot.  The embedding is a total
function, so no exception can escape. -/
theorem key_parser_total_or_none :
    (∀ (s sym : String) (dt : Date),
      parse_datetime_from_string_key s = some (sym, dt) →
      validYMD dt.year dt.month dt.day = true) ∧
    parse_datetime_from_string_key (mkKey "ERR" "2023, 2, 30") = none ∧
    parse_datetime_from_string_key (mkKey "E" "2023, 13, 1") = none ∧
    parse_datetime_from_string_key (mkKey "BAD" "2023, 12") = none ∧
    parse_datetime_from_string_key (mkKey "BADINT" "2023, 12, XX") = none := by
  refine ⟨?_, by decide, by decide, by decide, by decide⟩
  intro s sym dt h
  unfold parse_datetime_from_string_key at h
  cases hr : reSearch s.data with
  | none => rw [hr] at h; exact absurd h (by simp)
  | some r =>
    obtain ⟨sym0, y, m, d⟩ := r
    rw [hr] at h
    dsimp only at h
    cases hd : pyDate? y m d with
    | none => rw [hd] at h; exact absurd h (by simp)
    | some dt0 =>
      rw [hd] at h
      simp only [Option.some.injEq, Prod.mk.injEq] at h
      unfold pyDate? at hd
      by_cases hv : validYMD y m d = true
      · rw [if_pos hv] at hd
        simp only [Option.some.injEq] at hd
        rw [← h.2, ← hd]
        exact hv
      · rw [if_neg hv] at hd
        exact absurd hd (by simp)

/-- C4 witness: the completeness direction applied at
`('MSFT', datetime.date(2023, 12, 25))`. -/
theorem key_parser_total_or_none_witness : validYMD 2023 12 25 = true :=
  key_parser_total_or_none.1 (mkKey "MSFT" "2023, 12, 25") "MSFT"
    ⟨2023, 12, 25⟩ (by decide)

/-- C5 (confirmed): the Other File Loader validates in order and returns
`None` with no partial data on every failure: a non-list or empty top level,
an inner list of length 1, a non-string first item, and a non-object second
item all fail; and on a well-formed first element it returns `(symbol,
details)`, ignoring elements beyond index 1 of the inner list and beyond
index 0 of the outer list. -/
theorem other_loader_validation :
    parse_other_json_file .missing = none ∧
    parse_other_json_file .badJson = none ∧
    (∀ kvs, parse_other_json_file (.ok (.obj kvs)) = none) ∧
    parse_other_json_file (.ok (.arr [])) = none ∧
    (∀ x rest, parse_other_json_file (.ok (.arr (Json.arr [x] :: rest))) = none) ∧
    (∀ v1 v2 irest orest, (∀ s, v1 ≠ Json.str s) →
      parse_other_json_file (.ok (.arr (Json.arr (v1 :: v2 :: irest) :: orest))) =
        none) ∧
    (∀ s v2 irest orest, (∀ kvs, v2 ≠ Json.obj kvs) →
      parse_other_json_file
        (.ok (.arr (Json.arr (Json.str s :: v2 :: irest) :: orest))) = none) ∧
    (∀ s dkvs irest orest,
      parse_other_json_file
        (.ok (.arr (Json.arr (Json.str s :: Json.obj dkvs :: irest) :: orest))) =
        some (s, dkvs)) := by
  refine ⟨rfl, rfl, fun kvs => rfl, rfl, fun x rest => rfl, ?_, ?_,
    fun s dkvs irest orest => rfl⟩
  · intro v1 v2 irest orest hns
    cases v1 with
    | str s => exact absurd rfl (hns s)
    | null => rfl
    | boolean b => rfl
    | num q => rfl
    | arr xs => rfl
    | obj kvs => rfl
  · intro s0 v2 irest orest hno
    cases v2 with
    | obj kvs => exact absurd rfl (hno kvs)
    | null => rfl
    | boolean b => rfl
    | num q => rfl
    | str s2 => rfl
    | arr xs => rfl

/-- C5 witness: the two hypothesis-bearing conjuncts applied at an integer
first item and an integer second item. -/
theorem other_loader_validation_witness :
    parse_other_json_file
      (.ok (.arr (Json.arr (Json.num 7 :: Json.obj [] :: []) :: []))) = none ∧
    parse_other_json_file
      (.ok (.arr (Json.arr (Json.str "A" :: Json.num 8 :: []) :: []))) = none :=
  ⟨other_loader_validation.2.2.2.2.2.1 (Json.num 7) (Json.obj []) [] []
      (fun _ h => Json.noConfusion h),
    other_loader_validation.2.2.2.2.2.2.1 "A" (Json.num 8) [] []
      (fun _ h => Json.noConfusion h)⟩

/-- C6 (confirmed): last-write-wins in both aggregates.  When two
successfully parsed history files both hold a value for the same
`(symbol, category, date)` triple, the merged `all_history_data` holds the
second file's value; when two parsed other files yield the same symbol,
`all_other_data` holds the second file's details. -/
theorem last_write_wins :
    (∀ (m1 m2 : HistMap) (sc1 i1 sc2 i2 : Nat) (s c : String) (d : Date)
      (v1 v2 : Json) (M : HistMap) (tot n : Nat),
      HistWF m2 →
      lookup3 m1 s c d = some v1 →
      lookup3 m2 s c d = some v2 →
      aggHistory [.success m1 sc1 i1, .success m2 sc2 i2] = some (M, tot, n) →
      lookup3 M s c d = some v2) ∧
    (∀ (s : String) (d1 d2 : AL String Json),
      alLookup (aggOther [some (s, d1), some (s, d2)]) s = some d2) := by
  constructor
  · intro m1 m2 sc1 i1 sc2 i2 s c d v1 v2 M tot n hw _ h2 hagg
    have hstep : aggHistory [.success m1 sc1 i1, .success m2 sc2 i2] =
        some (mergeHist (mergeHist [] m1) m2, 0 + i1 + i2, 0 + 1 + 1) := rfl
    rw [hstep] at hagg
    simp only [Option.some.injEq, Prod.mk.injEq] at hagg
    rw [← hagg.1]
    exact lookup3_mergeHist_some hw h2 _
  · intro s d1 d2
    simp [aggOther, alIns, alLookup]

/-- C6 witness: two single-entry history files for `("A", "close",
2023-01-01)` carrying 1 and then 2; the aggregate holds 2. -/
theorem last_write_wins_witness :
    lookup3 (mergeHist (mergeHist []
        [("A", [("close", [(⟨2023, 1, 1⟩, Json.num 1)])])])
        [("A", [("close", [(⟨2023, 1, 1⟩, Json.num 2)])])]) "A" "close" ⟨2023, 1, 1⟩ =
      some (Json.num 2) :=
  last_write_wins.1 [("A", [("close", [(⟨2023, 1, 1⟩, Json.num 1)])])]
    [("A", [("close", [(⟨2023, 1, 1⟩, Json.num 2)])])] 1 1 1 1 "A" "close"
    ⟨2023, 1, 1⟩ (Json.num 1) (Json.num 2) _ 2 2 (by decide) rfl rfl rfl

/-- C7 (corrected): the year group of the pattern is `\d{4}` - exactly four
digits, not "1 to 4 or more".  Every exact-form key whose year has four
digits (with a valid date) parses; a key with a three-digit year, valid
Gregorian date or not, does not match. -/
theorem year_pattern_exactly_four_digits :
    (∀ (sym : String) (y m d : Nat), quoteChar ∉ sym.data → 1000 ≤ y →
      validYMD y m d = true →
      parse_datetime_from_string_key (rawKey sym y m d) = some (sym, ⟨y, m, d⟩)) ∧
    parse_datetime_from_string_key (mkKey "AB" "999, 1, 2") = none :=
  ⟨fun _ _ _ _ hq _ hv => parse_rawKey [] hq hv, by decide⟩

/-- C7 witness: the four-digit direction applied at
`('GOOG', datetime.date(1997, 7, 1))`. -/
theorem year_pattern_exactly_four_digits_witness :
    parse_datetime_from_string_key (rawKey "GOOG" 1997 7 1) =
      some ("GOOG", ⟨1997, 7, 1⟩) :=
  year_pattern_exactly_four_digits.1 "GOOG" 1997 7 1 (by decide) (by decide) (by decide)

/-- C7 counterexample: a five-digit year - "4 or more digits" by the claim -
does not match: `\d{4}` captures the first four digits and the following
`\s*,` fails on the fifth digit. -/
theorem parse_key_five_digit_year_fails :
    parse_datetime_from_string_key (mkKey "A" "12345, 1, 2") = none := by decide

/-- C8 (corrected): the pattern is NOT anchored - the code uses `re.search`
with no `^`/`$` - so the parser finds the parenthesized pair anywhere in the
key.  In particular arbitrary text after the closing parenthesis never
prevents the match. -/
theorem parse_key_ignores_surrounding_text (sym : String) (y m d : Nat)
    (post : String) (hq : quoteChar ∉ sym.data) (hv : validYMD y m d = true) :
    parse_datetime_from_string_key
      (String.mk (rawKeyChars sym.data y m d post.data)) = some (sym, ⟨y, m, d⟩) :=
  parse_rawKey post.data hq hv

/-- C8 witness: the theorem applied with trailing text `trailing junk`. -/
theorem parse_key_ignores_surrounding_text_witness :
    parse_datetime_from_string_key
      (String.mk (rawKeyChars "A".data 2023 1 1 "trailing junk".data)) =
      some ("A", ⟨2023, 1, 1⟩) :=
  parse_key_ignores_surrounding_text "A" 2023 1 1 "trailing junk"
    (by decide) (by decide)

/-- C8 counterexample: non-whitespace characters both before the opening
parenthesis and after the closing one - the claim says this must return no
match, but `re.search` still finds the pattern and the parser succeeds. -/
theorem parse_key_unanchored_cex :
    parse_datetime_from_string_key
      (String.mk ("xx".data ++ (mkKey "A" "2023, 1, 1").data ++ "yy".data)) =
      some ("A", ⟨2023, 1, 1⟩) := by decide

/-- C9 (confirmed): the summary reporter enumerates at most 3 history
symbols (the first 3, in mapping order, with the remaining count exactly
when more than 3 exist), and per category at most 2 `date → value` entries;
when the keys are mutually comparable they are listed in ascending order
with no warning, and when they are not, `sorted` raising `TypeError` is
tolerated: the reporter falls back to unsorted iteration with a warning
instead of failing. -/
theorem summary_caps_and_sorting :
    (∀ h : AL String (AL String (AL HKey Json)),
      (print_data_summary h).blocks.length ≤ 3 ∧
      (print_data_summary h).blocks =
        (h.take 3).map (fun p => SymBlock.mk p.1 (p.2.map (fun q => catLine q.1 q.2))) ∧
      (print_data_summary h).moreSymbols =
        (if 3 < h.length then some (h.length - 3) else none)) ∧
    (∀ (c : String) (cm : AL HKey Json),
      (catLine c cm).entries.length ≤ 2 ∧
      (catLine c cm).more = (if 2 < cm.length then some (cm.length - 2) else none) ∧
      (allComparable (cm.map Prod.fst) = true →
        (catLine c cm).sortWarn = false ∧
        ((catLine c cm).entries.map Prod.fst).Chain' (fun a b => hkLe a b = true)) ∧
      (allComparable (cm.map Prod.fst) = false →
        (catLine c cm).sortWarn = true ∧
        (catLine c cm).entries =
          ((cm.map Prod.fst).take 2).map (fun k => (k, alGetD cm k Json.null)))) := by
  constructor
  · intro h
    obtain ⟨hb, hm⟩ := print_data_summary_spec h
    refine ⟨?_, hb, hm⟩
    rw [hb]
    simp only [List.length_map, List.length_take]
    omega
  · intro c cm
    obtain ⟨h1, h2, h3, h4⟩ := catLine_spec c cm
    exact ⟨h1, h2, fun hc => ⟨(h3 hc).1, (h3 hc).2.1⟩, h4⟩

/-- C9 witness: a two-date category is printed sorted without a warning, and
a category mixing a date key with a string key takes the unsorted fallback
with the warning. -/
theorem summary_caps_and_sorting_witness :
    (catLine "close" [(HKey.date ⟨2023, 1, 2⟩, Json.num 2),
        (HKey.date ⟨2023, 1, 1⟩, Json.num 1)]).sortWarn = false ∧
    (catLine "open" [(HKey.date ⟨2023, 1, 1⟩, Json.num 1),
        (HKey.str "oops", Json.num 2)]).sortWarn = true := by
  have h1 := (summary_caps_and_sorting.2 "close"
    [(HKey.date ⟨2023, 1, 2⟩, Json.num 2),
     (HKey.date ⟨2023, 1, 1⟩, Json.num 1)]).2.2.1 (by decide)
  have h2 := (summary_caps_and_sorting.2 "open"
    [(HKey.date ⟨2023, 1, 1⟩, Json.num 1),
     (HKey.str "oops", Json.num 2)]).2.2.2 (by decide)
  exact ⟨h1.1, h2.1⟩

/-- C10 (corrected): after aggregating any run of history files, the total
item count equals the sum of the per-file item counts of the successfully
parsed files, and is at least the number of leaf entries of the aggregated
mapping; equality holds exactly when no `(symbol, category, date)` triple is
contributed more than once IN TOTAL - across files or within a single file
(the original claim's "no two files contributed the same triple" misses
within-file duplicates). -/
theorem item_count_vs_leaf_count (files : List LoadResult) (M : HistMap)
    (tot n : Nat)
    (h : aggHistory (files.map parse_history_file) = some (M, tot, n)) :
    tot = (files.map (fun f => (fileEv f).length)).sum ∧
    leafCount M ≤ tot ∧
    (leafCount M = tot ↔ ((files.flatMap fileEv).map trip).Nodup) := by
  obtain ⟨hw, hkeys, htot⟩ := agg_invariant files [] 0 0 HistWF_nil h
  have hflat := length_flatMap_fileEv files
  have hL : leafCount M = ((files.flatMap fileEv).map trip).dedup.length := by
    rw [leafCount_eq_card hw, hkeys]
    simp [keys3_nil, List.card_toFinset]
  have hlen2 : ((files.flatMap fileEv).map trip).length =
      (files.flatMap fileEv).length := List.length_map _ _
  have hsub := List.Sublist.length_le
    (List.dedup_sublist ((files.flatMap fileEv).map trip))
  refine ⟨by omega, by omega, ?_⟩
  constructor
  · intro he
    have heq : ((files.flatMap fileEv).map trip).dedup =
        (files.flatMap fileEv).map trip :=
      List.Sublist.eq_of_length (List.dedup_sublist _) (by omega)
    exact List.dedup_eq_self.mp heq
  · intro hnd
    rw [hL, List.dedup_eq_self.mpr hnd]
    omega

/-- C10 witness: one file with a single entry - count 1, one leaf, equality
via the duplicate-free condition. -/
theorem item_count_vs_leaf_count_witness :
    leafCount [("AAPL", [("close", [(⟨2023, 1, 1⟩, Json.num 150)])])] ≤ 1 :=
  (item_count_vs_leaf_count
    [.ok (.obj [("close", .obj [(mkKey "AAPL" "2023, 1, 1", .num 150)])])]
    [("AAPL", [("close", [(⟨2023, 1, 1⟩, Json.num 150)])])] 1 1 rfl).2.1

/-- C10 counterexample: the claim's equality condition as stated - "no two
FILES contributed the same triple" - is false.  A single file whose two
distinct raw keys `('A', datetime.date(2023, 1, 1))` and
`('A', datetime.date(2023, 01, 1))` parse to the same triple gives a total
item count of 2 but only 1 leaf entry, although the pairwise-between-files
condition holds vacuously. -/
theorem item_count_duplicate_triple_cex :
    ¬(∀ (files : List LoadResult) (M : HistMap) (tot n : Nat),
      aggHistory (files.map parse_history_file) = some (M, tot, n) →
      (files.map (fun f => (fileEv f).map trip)).Pairwise
        (fun a b => ∀ x ∈ a, x ∉ b) →
      leafCount M = tot) := by
  intro hclaim
  have h := hclaim
    [.ok (.obj [("close", .obj [(mkKey "A" "2023, 1, 1", .num 1),
      (mkKey "A" "2023, 01, 1", .num 2)])])]
    [("A", [("close", [(⟨2023, 1, 1⟩, Json.num 2)])])] 2 1 rfl (by simp)
  exact absurd h (by decide)

/-! ## Sanity checks on concrete inputs -/

example :
    parse_datetime_from_string_key (mkKey "MSFT" "2023, 12, 25") =
      some ("MSFT", ⟨2023, 12, 25⟩) := by decide

example : parse_datetime_from_string_key (mkKey "ERR" "2023, 2, 30") = none := by decide

example : parse_datetime_from_string_key (mkKey "SYM" "999, 7, 1") = none := by decide

example :
    parse_history_file (.ok (.obj [("close",
      .obj [(mkKey "AAPL" "2023, 1, 1", .num 150)])])) =
    .success [("AAPL", [("close", [(⟨2023, 1, 1⟩, Json.num 150)])])] 1 1 := by rfl

example :
    parse_history_file (.ok (.obj [("close",
      .obj [(mkKey "X" "2023, 2, 30", .num 1)])])) = .success [] 0 0 := by rfl

example : parse_history_file (.ok (.arr [.num 1, .num 2])) = .pyError := by rfl

example : rawKey "MSFT" 2023 12 25 = mkKey "MSFT" "2023, 12, 25" := by decide

example : rawKey "A" 1997 7 1 = mkKey "A" "1997, 7, 1" := by decide

end RP
